import Mathlib

/-!
# Verification of the cctools statistics / histogram / mordor core

Shallow embedding of the statistics accumulator (`stats.c`, the complete
version of the file), the bivariate accumulator, the sparse histogram
(modelled from the spec, see below), and the multi-series collector
(`resource_monitor/src/mordor.c`).

Doubles are modelled as exact rational numbers, with a dedicated type
`DVal` carrying the IEEE special values NaN and plus/minus infinity where
the code's behaviour on them matters (insertion filtering, the collector's
bucket size).  Fallible C functions that produce NaN or a NULL pointer are
modelled with `Option`.
-/

namespace CCTools

/-- An IEEE double modelled exactly: either a finite rational value or one
of the special values NaN, plus infinity, minus infinity.  Rounding and
overflow of finite doubles are not modelled (finite arithmetic is exact). -/
inductive DVal where
  | fin (q : ℚ)
  | nan
  | inf
  | ninf
deriving DecidableEq, Repr

/-- C `isnan`. -/
def DVal.isnan : DVal → Bool
  | .nan => true
  | _ => false

/-- C `isinf` (true for both infinities). -/
def DVal.isinf : DVal → Bool
  | .inf => true
  | .ninf => true
  | _ => false

/-- IEEE `>` on doubles: any comparison with NaN is false. -/
def DVal.gt : DVal → DVal → Bool
  | .fin a, .fin b => decide (b < a)
  | .fin _, .ninf => true
  | .fin _, _ => false
  | .inf, .fin _ => true
  | .inf, .ninf => true
  | .inf, _ => false
  | .nan, _ => false
  | .ninf, _ => false

/-- IEEE `<` on doubles. -/
def DVal.lt (a b : DVal) : Bool := DVal.gt b a

/-- IEEE `==` on doubles: NaN compares unequal to everything, including
itself. -/
def DVal.ieeeEq : DVal → DVal → Bool
  | .fin a, .fin b => decide (a = b)
  | .inf, .inf => true
  | .ninf, .ninf => true
  | _, _ => false

theorem DVal.eq_of_ieeeEq {a b : DVal} (h : DVal.ieeeEq a b = true) : a = b := by
  cases a <;> cases b <;> simp_all [DVal.ieeeEq]

/-! ## Histogram

Modelled from the spec: the histogram implementation (`histogram.c`) is not
among the sources, only its header is referenced.  Per spec section 4.3, a
histogram has a fixed `bucket_width` and a sparse mapping from bucket
lower-edge to occupied count; bucket edges are quantized at multiples of
the width from a fixed anchor, chosen here as 0, so `insert(value)`
increments the count at `floor(value / width) * width`;
`occupied_buckets()` is the ascending list of bucket starts with non-zero
count, `size()` their number, and `count_at` is 0 for an absent bucket.
The width is a double (the collector stores a possibly-NaN bucket size),
so it is carried as a `DVal`; only a finite width gives meaningful bucket
starts. -/

structure Histogram where
  width : DVal
  /-- Association list from bucket start to its count, kept ascending by
  bucket start with every stored count positive. -/
  buckets : List (ℚ × Nat)
deriving DecidableEq, Repr

/-- Bucket lower edge for a value: `floor(value / width) * width`
(anchor 0).  For a non-finite width the C computation is meaningless; the
model returns 0 (never reached with a positive finite width). -/
def bucketStart (w : DVal) (v : ℚ) : ℚ :=
  match w with
  | .fin q => (⌊v / q⌋ : ℚ) * q
  | _ => 0

/-- `histogram_create(bucket_size)`: empty histogram of the given width. -/
def histogram_create (w : DVal) : Histogram := ⟨w, []⟩

/-- Insert a bucket start into the sorted association list, incrementing
its count if already present. -/
def histBucketsInsert (b : ℚ) : List (ℚ × Nat) → List (ℚ × Nat)
  | [] => [(b, 1)]
  | (c, n) :: rest =>
    if b < c then (b, 1) :: (c, n) :: rest
    else if b = c then (c, n + 1) :: rest
    else (c, n) :: histBucketsInsert b rest

/-- `histogram_insert(h, value)`. -/
def histogram_insert (h : Histogram) (v : ℚ) : Histogram :=
  { h with buckets := histBucketsInsert (bucketStart h.width v) h.buckets }

/-- `histogram_bucket_size(h)`. -/
def histogram_bucket_size (h : Histogram) : DVal := h.width

/-- `histogram_size(h)`: number of occupied buckets. -/
def histogram_size (h : Histogram) : Nat := h.buckets.length

/-- `histogram_buckets(h)`: ascending array of occupied bucket starts. -/
def histogram_buckets (h : Histogram) : List ℚ := h.buckets.map Prod.fst

/-- `histogram_count(h, b)`: count at bucket start `b`, 0 if absent. -/
def histogram_count (h : Histogram) (b : ℚ) : Nat :=
  match h.buckets.find? (fun p => p.1 = b) with
  | some p => p.2
  | none => 0

/-- Total number of values bucketed in the histogram. -/
def histogram_total (h : Histogram) : Nat := (h.buckets.map Prod.snd).sum

/-! ## The univariate statistics accumulator (`struct stats`) -/

/-- `struct stats`: running sum and sum of squares, the growable buffer of
stored finite values (its length is the C `count`; the allocation size is
not modelled), and the dirty flag that defers sorting. -/
structure Stats where
  sum : ℚ
  sum_squares : ℚ
  values : List ℚ
  dirty : Bool
deriving DecidableEq, Repr

/-- The C `count` field, which always equals the number of stored values. -/
def Stats.count (s : Stats) : Nat := s.values.length

/-- `stats_reset` / the state right after `stats_init`. -/
def stats_reset_state : Stats := ⟨0, 0, [], false⟩

/-- The structural invariant the C code maintains: when the dirty flag is
clear the buffer is sorted (it was sorted and nothing was inserted since). -/
def Stats.WF (s : Stats) : Prop := s.dirty = false → s.values.Sorted (· ≤ ·)

instance (s : Stats) : Decidable s.WF := by
  unfold Stats.WF; infer_instance

/-- `stats_insert`: NaN and infinite values are silently discarded;
a finite value updates the sums, is appended to the buffer, and sets the
dirty flag. -/
def stats_insert (s : Stats) (v : DVal) : Stats :=
  if v.isnan || v.isinf then s
  else
    match v with
    | .fin q =>
      { sum := s.sum + q
        sum_squares := s.sum_squares + q * q
        values := s.values ++ [q]
        dirty := true }
    | _ => s

/-- The value buffer as `stats_sort` leaves it: sorted only if the dirty
flag was set (the C comparator sorts ascending). -/
def stats_sort_values (s : Stats) : List ℚ :=
  if s.dirty then s.values.insertionSort (· ≤ ·) else s.values

/-- `stats_minimum`: NaN (`none`) if empty, else the first sorted value. -/
def stats_minimum (s : Stats) : Option ℚ :=
  if s.count = 0 then none else some ((stats_sort_values s).getD 0 0)

/-- `stats_maximum`: NaN (`none`) if empty, else the last sorted value. -/
def stats_maximum (s : Stats) : Option ℚ :=
  if s.count = 0 then none else some ((stats_sort_values s).getD (s.count - 1) 0)

/-- The middle-element rule on the index range `[start, stop)` of a list:
`none` (NaN) when the range is empty, the middle element when its length
is odd, the average of the two middle elements when even. -/
def midRange (v : List ℚ) (start stop : Nat) : Option ℚ :=
  let delta := stop - start
  if delta = 0 then none
  else if delta % 2 = 1 then some (v.getD (start + delta / 2) 0)
  else some ((v.getD (start + delta / 2 - 1) 0 + v.getD (start + delta / 2) 0) / 2)

/-- `stats_middle_between`: sorts, then applies the middle-element rule to
the index range `[start, stop)`. -/
def stats_middle_between (s : Stats) (start stop : Nat) : Option ℚ :=
  midRange (stats_sort_values s) start stop

/-- `stats_median`. -/
def stats_median (s : Stats) : Option ℚ := stats_middle_between s 0 s.count

/-- `stats_Q1`: the sole (unsorted) stored value when `count == 1`, else
the middle-element rule on `[0, count/2)`. -/
def stats_Q1 (s : Stats) : Option ℚ :=
  if s.count = 1 then some (s.values.getD 0 0)
  else stats_middle_between s 0 (s.count / 2)

/-- `stats_Q3`: the sole stored value when `count == 1`; the rule on
`[count/2, count)` for even count, on `[count/2 + 1, count)` for odd. -/
def stats_Q3 (s : Stats) : Option ℚ :=
  if s.count = 1 then some (s.values.getD 0 0)
  else if s.count % 2 = 0 then stats_middle_between s (s.count / 2) s.count
  else stats_middle_between s (s.count / 2 + 1) s.count

/-- The whisker scan loop: walk the list, stopping at the first element
satisfying `p`; if none does, the loop leaves the last element in hand.
`none` only on an empty list (the callers rule that out). -/
def whisker_scan (p : ℚ → Bool) : List ℚ → Option ℚ
  | [] => none
  | [x] => some x
  | x :: y :: rest => if p x then some x else whisker_scan p (y :: rest)

/-- `stats_whisker_low`: NaN (`none`) if empty; else scan the sorted
values upward for the first one at or above `Q1 - 1.5*(Q3 - Q1)`. -/
def stats_whisker_low (s : Stats) : Option ℚ :=
  if s.count = 0 then none
  else
    match stats_Q1 s, stats_Q3 s with
    | some q1, some q3 =>
      let threshold := q1 - 3/2 * (q3 - q1)
      whisker_scan (fun v => decide (threshold ≤ v)) (stats_sort_values s)
    | _, _ => none

/-- `stats_whisker_high`: NaN (`none`) if empty; else scan the sorted
values downward (the reversed list) for the first one at or below
`Q3 + 1.5*(Q3 - Q1)`. -/
def stats_whisker_high (s : Stats) : Option ℚ :=
  if s.count = 0 then none
  else
    match stats_Q1 s, stats_Q3 s with
    | some q1, some q3 =>
      let threshold := q3 + 3/2 * (q3 - q1)
      whisker_scan (fun v => decide (v ≤ threshold)) (stats_sort_values s).reverse
    | _, _ => none

/-- `enum outlier_handling`. -/
inductive OutlierHandling where
  | keepOutliers
  | discardOutliers
deriving DecidableEq, Repr

/-- `stats_build_histogram`: NULL (`none`) when empty; else the whisker
range (discarding outliers) or the min/max range (keeping them) is
computed, and every stored value inside the range (every value, when
keeping outliers) is inserted into a fresh histogram of the given bucket
size.  The C loop iterates the buffer, which the preceding order-statistic
calls have left sorted; the `keep` branch's `low`/`high` are computed but
unused, as in the C. -/
def stats_build_histogram (s : Stats) (w : DVal) (h : OutlierHandling) :
    Option Histogram :=
  if s.count = 0 then none
  else
    match h with
    | .discardOutliers =>
      match stats_whisker_low s, stats_whisker_high s with
      | some low, some high =>
        some ((stats_sort_values s).foldl
          (fun hist v =>
            if low ≤ v ∧ v ≤ high then histogram_insert hist v else hist)
          (histogram_create w))
      | _, _ => none
    | .keepOutliers =>
      some ((stats_sort_values s).foldl
        (fun hist v => histogram_insert hist v) (histogram_create w))

/-- `stats_ideal_bucket_size`: `(|max| - |min|) / (int)sqrt(count)`, where
the numerator's larger term gets a relative nudge when `|max| == |min|`.
With an empty accumulator the C arithmetic on NaN yields NaN.  The C
truncation `(int)sqrt(count)` of the exactly-rounded double square root is
modelled by `Nat.sqrt`. -/
def stats_ideal_bucket_size (s : Stats) : DVal :=
  match stats_maximum s, stats_minimum s with
  | some mx0, some mn0 =>
    let mx := |mx0|
    let mn := |mn0|
    let mx := if mx = mn then mx + mx / 1000000 else mx
    .fin ((mx - mn) / (Nat.sqrt s.count : ℚ))
  | _, _ => .nan

/-! ## The bivariate accumulator (`struct stats2`) -/

/-- `struct stats2`: running sums and per-axis min/max (doubles that start
at plus/minus infinity after `stats2_reset`, hence `DVal`). -/
structure Stats2 where
  sum_x : ℚ
  sum_y : ℚ
  sum_xy : ℚ
  sum_squares_x : ℚ
  sum_squares_y : ℚ
  min_x : DVal
  min_y : DVal
  max_x : DVal
  max_y : DVal
  count : Nat
deriving DecidableEq, Repr

/-- `stats2_reset` / `stats2_init`: zero the sums, set the minima to
`INFINITY` and the maxima to `-INFINITY`. -/
def stats2_reset_state : Stats2 :=
  ⟨0, 0, 0, 0, 0, .inf, .inf, .ninf, .ninf, 0⟩

/-- `stats2_insert`: the pair is discarded when either coordinate is NaN
or infinite; otherwise the sums, the per-axis min/max (IEEE comparisons)
and the count are updated. -/
def stats2_insert (s : Stats2) (x y : DVal) : Stats2 :=
  if x.isnan || y.isnan || x.isinf || y.isinf then s
  else
    match x, y with
    | .fin a, .fin b =>
      { sum_x := s.sum_x + a
        sum_y := s.sum_y + b
        sum_xy := s.sum_xy + a * b
        sum_squares_x := s.sum_squares_x + a * a
        sum_squares_y := s.sum_squares_y + b * b
        min_x := if s.min_x.gt (.fin a) then .fin a else s.min_x
        min_y := if s.min_y.gt (.fin b) then .fin b else s.min_y
        max_x := if s.max_x.lt (.fin a) then .fin a else s.max_x
        max_y := if s.max_y.lt (.fin b) then .fin b else s.max_y
        count := s.count + 1 }
    | _, _ => s

/-- `stats2_mean_x` (`sum_x / count`; division by a zero count is the
C NaN case, which no claim exercises). -/
def stats2_mean_x (s : Stats2) : ℚ := s.sum_x / s.count

/-- `stats2_mean_y`. -/
def stats2_mean_y (s : Stats2) : ℚ := s.sum_y / s.count

/-- The radicand of `stats2_stddev_x`:
`sum_squares_x/count - mean_x*mean_x` (population normalization). -/
def stats2_variance_x (s : Stats2) : ℚ :=
  s.sum_squares_x / s.count - stats2_mean_x s * stats2_mean_x s

/-- The radicand of `stats2_stddev_y`. -/
def stats2_variance_y (s : Stats2) : ℚ :=
  s.sum_squares_y / s.count - stats2_mean_y s * stats2_mean_y s

/-- `stats2_covariance`: `sum_xy/count - mean_x*mean_y`. -/
def stats2_covariance (s : Stats2) : ℚ :=
  s.sum_xy / s.count - stats2_mean_x s * stats2_mean_y s

/-- `stats2_linear_regression`, with the two output pointers modelled as
an optional result (the C additionally fails on NULL destinations, which
have no counterpart here).  The C slope is
`correlation() * (stddev_y() / stddev_x())`, computed with real square
roots of the two variances; in exact arithmetic that expression equals
`covariance / variance_x` whenever both variances are positive (see
`sqrt_slope_eq`), and is NaN or infinite otherwise (a zero or negative
radicand makes a stddev zero or NaN, so the divisions produce NaN or an
infinity), which the C rejects with `isnan(slope) || isinf(slope)`. -/
def stats2_linear_regression (s : Stats2) : Option (ℚ × ℚ) :=
  if s.count < 2 then none
  else if 0 < stats2_variance_x s ∧ 0 < stats2_variance_y s then
    let slope := stats2_covariance s / stats2_variance_x s
    some (slope, s.sum_y / s.count - slope * s.sum_x / s.count)
  else none

/-! ## The multi-series collector (`struct mordor`) -/

/-- `struct mordor_mountain`: one series' accumulator, cached histogram
(NULL modelled as `none`) and dirty flag. -/
structure Mountain where
  stat : Stats
  hist : Option Histogram
  dirty : Bool
deriving DecidableEq, Repr

/-- `struct mordor`: the keyed series table (the hash table is modelled as
an association list), cumulative accumulator and histogram, shared bucket
size (a double, NaN before any rebuild with data) and collector dirty
flag.  The plotting style, sort order and label strings do not affect the
histogram state and are not modelled. -/
structure Mordor where
  table : List (String × Mountain)
  cumulative_stats : Stats
  cumulative_hist : Option Histogram
  bucket_size : DVal
  dirty : Bool
deriving DecidableEq, Repr

/-- Association-list lookup (hash table lookup by key). -/
def tableLookup (t : List (String × Mountain)) (key : String) :
    Option Mountain :=
  match t.find? (fun p => p.1 = key) with
  | some p => some p.2
  | none => none

/-- Replace the mountain stored under an existing key. -/
def tableUpdate (t : List (String × Mountain)) (key : String)
    (mtn : Mountain) : List (String × Mountain) :=
  t.map (fun p => if p.1 = key then (p.1, mtn) else p)

/-- `mordor_create`: empty table, initialized cumulative stats, no
cumulative histogram, bucket size 0, dirty. -/
def mordor_create : Mordor :=
  ⟨[], stats_reset_state, none, .fin 0, true⟩

/-- `mordor_insert`: get-or-create the series for the key, insert the
value into its accumulator and the cumulative accumulator, mark the
series and the collector dirty. -/
def mordor_insert (m : Mordor) (key : String) (v : DVal) : Mordor :=
  match tableLookup m.table key with
  | some mtn =>
    { m with
      table := tableUpdate m.table key
        { mtn with stat := stats_insert mtn.stat v, dirty := true }
      cumulative_stats := stats_insert m.cumulative_stats v
      dirty := true }
  | none =>
    let mtn : Mountain := ⟨stats_reset_state, none, true⟩
    { m with
      table := m.table ++
        [(key, { mtn with stat := stats_insert mtn.stat v, dirty := true })]
      cumulative_stats := stats_insert m.cumulative_stats v
      dirty := true }

/-- The per-mountain step of `mordor_build_histograms`: skip the rebuild
when the mountain is clean, has a histogram, and that histogram's bucket
size already equals the shared one (an IEEE `==` on doubles); otherwise
rebuild at the shared size and clear the mountain's dirty flag. -/
def mountainRebuild (w : DVal) (mtn : Mountain) : Mountain :=
  if mtn.dirty = false ∧ mtn.hist.isSome ∧
      (match mtn.hist with
       | some h => (histogram_bucket_size h).ieeeEq w
       | none => false) = true then
    mtn
  else
    { mtn with hist := stats_build_histogram mtn.stat w .keepOutliers
               dirty := false }

/-- `mordor_build_histograms`: a no-op unless dirty; otherwise recompute
the shared bucket size from the cumulative accumulator, rebuild the
cumulative histogram (keeping outliers), rebuild every stale mountain at
the shared size, and clear the dirty flag. -/
def mordor_build_histograms (m : Mordor) : Mordor :=
  if m.dirty = false then m
  else
    let w := stats_ideal_bucket_size m.cumulative_stats
    { m with
      bucket_size := w
      cumulative_hist :=
        stats_build_histogram m.cumulative_stats w .keepOutliers
      table := m.table.map (fun p => (p.1, mountainRebuild w p.2))
      dirty := false }

/-- The collector states reachable from `mordor_create` by any sequence of
insertions and rebuilds. -/
inductive MordorReachable : Mordor → Prop where
  | create : MordorReachable mordor_create
  | insert {m} (key : String) (v : DVal) :
      MordorReachable m → MordorReachable (mordor_insert m key v)
  | build {m} :
      MordorReachable m → MordorReachable (mordor_build_histograms m)

/-! ## Supporting lemmas: sorted values and the middle-element rule -/

theorem sorted_getD_mono {l : List ℚ} (hs : l.Sorted (· ≤ ·)) {i j : ℕ}
    (hij : i ≤ j) (hj : j < l.length) : l.getD i 0 ≤ l.getD j 0 := by
  have hi : i < l.length := lt_of_le_of_lt hij hj
  rw [List.getD_eq_getElem l 0 hi, List.getD_eq_getElem l 0 hj]
  exact hs.rel_get_of_le (a := ⟨i, hi⟩) (b := ⟨j, hj⟩) hij

theorem getD_mem {α : Type _} {l : List α} {d : α} {i : ℕ}
    (h : i < l.length) : l.getD i d ∈ l := by
  rw [List.getD_eq_getElem l d h]
  exact List.getElem_mem h

theorem stats_sort_values_sorted {s : Stats} (hwf : s.WF) :
    (stats_sort_values s).Sorted (· ≤ ·) := by
  unfold stats_sort_values
  cases hd : s.dirty with
  | true => simpa using List.sorted_insertionSort (· ≤ ·) s.values
  | false => simpa using hwf hd

theorem stats_sort_values_perm (s : Stats) :
    (stats_sort_values s).Perm s.values := by
  unfold stats_sort_values
  cases hd : s.dirty with
  | true => simpa using List.perm_insertionSort (· ≤ ·) s.values
  | false => simp

theorem stats_sort_values_length (s : Stats) :
    (stats_sort_values s).length = s.count :=
  (stats_sort_values_perm s).length_eq

theorem stats_sort_values_mem {s : Stats} {x : ℚ} :
    x ∈ stats_sort_values s ↔ x ∈ s.values :=
  (stats_sort_values_perm s).mem_iff

theorem midRange_isSome {v : List ℚ} {start stop : ℕ} (h : start < stop) :
    ∃ x, midRange v start stop = some x := by
  unfold midRange
  have hd : stop - start ≠ 0 := Nat.sub_ne_zero_of_lt h
  by_cases hp : (stop - start) % 2 = 1 <;> simp [hd, hp]

/-- The middle-element rule returns either an element of the index range
or the average of two consecutive elements in it. -/
theorem midRange_cases {v : List ℚ} {start stop : ℕ} (h : start < stop) :
    (∃ i, start ≤ i ∧ i < stop ∧
        midRange v start stop = some (v.getD i 0)) ∨
    (∃ i, start < i ∧ i < stop ∧
        midRange v start stop =
          some ((v.getD (i - 1) 0 + v.getD i 0) / 2)) := by
  have hd : stop - start ≠ 0 := Nat.sub_ne_zero_of_lt h
  have hlt : (stop - start) / 2 < stop - start :=
    Nat.div_lt_self (Nat.pos_of_ne_zero hd) one_lt_two
  by_cases hp : (stop - start) % 2 = 1
  · refine Or.inl ⟨start + (stop - start) / 2, Nat.le_add_right _ _, ?_, ?_⟩
    · omega
    · unfold midRange; simp [hd, hp]
  · have h2 : 2 ≤ stop - start := by omega
    refine Or.inr ⟨start + (stop - start) / 2, ?_, ?_, ?_⟩
    · have : 1 ≤ (stop - start) / 2 := by omega
      omega
    · omega
    · unfold midRange; simp [hd, hp]

theorem avg_between {a b : ℚ} (hab : a ≤ b) :
    a ≤ (a + b) / 2 ∧ (a + b) / 2 ≤ b := by constructor <;> linarith

theorem midRange_bounds {v : List ℚ} (hs : v.Sorted (· ≤ ·)) {start stop : ℕ}
    (h : start < stop) (hlen : stop ≤ v.length) {x : ℚ}
    (hx : midRange v start stop = some x) :
    v.getD start 0 ≤ x ∧ x ≤ v.getD (stop - 1) 0 := by
  rcases midRange_cases (v := v) h with ⟨i, hsi, his, heq⟩ | ⟨i, hsi, his, heq⟩
  · rw [heq] at hx
    obtain rfl : v.getD i 0 = x := by injection hx
    constructor
    · exact sorted_getD_mono hs hsi (by omega)
    · exact sorted_getD_mono hs (by omega) (by omega)
  · rw [heq] at hx
    obtain rfl : (v.getD (i - 1) 0 + v.getD i 0) / 2 = x := by injection hx
    have hcons : v.getD (i - 1) 0 ≤ v.getD i 0 :=
      sorted_getD_mono hs (by omega) (by omega)
    have havg := avg_between hcons
    constructor
    · exact le_trans (sorted_getD_mono hs (by omega) (by omega)) havg.1
    · exact le_trans havg.2 (sorted_getD_mono hs (by omega) (by omega))

/-- The middle-element rule, unfolded: the middle element for an odd
range length, the average of the two middle elements for an even one. -/
theorem midRange_eq {v : List ℚ} {start stop : ℕ} (h : start < stop) :
    ((stop - start) % 2 = 1 ∧
      midRange v start stop =
        some (v.getD (start + (stop - start) / 2) 0)) ∨
    ((stop - start) % 2 = 0 ∧
      midRange v start stop =
        some ((v.getD (start + (stop - start) / 2 - 1) 0 +
               v.getD (start + (stop - start) / 2) 0) / 2)) := by
  have hd : stop - start ≠ 0 := Nat.sub_ne_zero_of_lt h
  by_cases hp : (stop - start) % 2 = 1
  · exact Or.inl ⟨hp, by unfold midRange; simp [hd, hp]⟩
  · exact Or.inr ⟨by omega, by unfold midRange; simp [hd, hp]⟩

theorem midRange_le_upperMid {v : List ℚ} (hs : v.Sorted (· ≤ ·))
    {start stop : ℕ} (h : start < stop) (hlen : stop ≤ v.length) {x : ℚ}
    (hx : midRange v start stop = some x) :
    x ≤ v.getD (start + (stop - start) / 2) 0 := by
  have hidx : start + (stop - start) / 2 < v.length := by
    have := Nat.div_lt_self (Nat.sub_pos_of_lt h) one_lt_two
    omega
  rcases midRange_eq (v := v) h with ⟨hp, heq⟩ | ⟨hp, heq⟩
  · rw [heq] at hx
    obtain rfl : _ = x := by injection hx
    exact le_refl _
  · rw [heq] at hx
    obtain rfl : _ = x := by injection hx
    exact (avg_between (sorted_getD_mono hs (by omega) hidx)).2

theorem midRange_ge_lowerMid {v : List ℚ} (hs : v.Sorted (· ≤ ·))
    {start stop : ℕ} (h : start < stop) (hlen : stop ≤ v.length) {x : ℚ}
    (hx : midRange v start stop = some x) :
    v.getD (start + (stop - start) / 2 - 1) 0 ≤ x := by
  have hidx : start + (stop - start) / 2 < v.length := by
    have := Nat.div_lt_self (Nat.sub_pos_of_lt h) one_lt_two
    omega
  rcases midRange_eq (v := v) h with ⟨hp, heq⟩ | ⟨hp, heq⟩
  · rw [heq] at hx
    obtain rfl : _ = x := by injection hx
    exact sorted_getD_mono hs (by omega) hidx
  · rw [heq] at hx
    obtain rfl : _ = x := by injection hx
    exact (avg_between (sorted_getD_mono hs (by omega) hidx)).1

/-! ## Quartile lemmas -/

/-- The start index of the range `stats_Q3` takes the middle of
(for `count >= 2`). -/
def q3Start (n : ℕ) : ℕ := if n % 2 = 0 then n / 2 else n / 2 + 1

theorem q3Start_ge (n : ℕ) : n / 2 ≤ q3Start n := by
  unfold q3Start; split <;> omega

theorem q3Start_lt {n : ℕ} (h : 2 ≤ n) : q3Start n < n := by
  unfold q3Start; split <;> omega

theorem stats_Q1_spec {s : Stats} (h2 : 2 ≤ s.count) :
    stats_Q1 s = midRange (stats_sort_values s) 0 (s.count / 2) := by
  unfold stats_Q1 stats_middle_between
  rw [if_neg (by omega)]

theorem stats_Q3_spec {s : Stats} (h2 : 2 ≤ s.count) :
    stats_Q3 s = midRange (stats_sort_values s) (q3Start s.count) s.count := by
  unfold stats_Q3 stats_middle_between q3Start
  rw [if_neg (by omega)]
  by_cases hp : s.count % 2 = 0 <;> simp [hp]

theorem count_one_values {s : Stats} (h : s.count = 1) :
    ∃ x, s.values = [x] := by
  cases hv : s.values with
  | nil => rw [Stats.count, hv] at h; simp at h
  | cons a t =>
    cases t with
    | nil => exact ⟨a, rfl⟩
    | cons b t2 => rw [Stats.count, hv] at h; simp at h

theorem stats_sort_values_count_one {s : Stats} {x : ℚ}
    (hx : s.values = [x]) : stats_sort_values s = [x] := by
  have hp := stats_sort_values_perm s
  rw [hx] at hp
  exact List.perm_singleton.mp hp

theorem stats_Q1_isSome {s : Stats} (h1 : 1 ≤ s.count) :
    ∃ q, stats_Q1 s = some q := by
  by_cases h : s.count = 1
  · exact ⟨s.values.getD 0 0, by unfold stats_Q1; rw [if_pos h]⟩
  · rw [stats_Q1_spec (by omega)]
    exact midRange_isSome (by omega)

theorem stats_Q3_isSome {s : Stats} (h1 : 1 ≤ s.count) :
    ∃ q, stats_Q3 s = some q := by
  by_cases h : s.count = 1
  · exact ⟨s.values.getD 0 0, by unfold stats_Q3; rw [if_pos h]⟩
  · rw [stats_Q3_spec (by omega)]
    exact midRange_isSome (q3Start_lt (by omega))

/-! ## Claim C8 -/

/-- C8: for every accumulator with `count >= 3` (well-formed, i.e. the
buffer is sorted whenever the dirty flag is clear, as the C code
maintains), the quartiles are ordered `Q1 <= median <= Q3`; and for every
accumulator with `count == 1` they all equal the single stored value. -/
theorem C8_quartile_median_order (s : Stats) (hwf : s.WF) :
    (3 ≤ s.count →
      ∃ a b c, stats_Q1 s = some a ∧ stats_median s = some b ∧
        stats_Q3 s = some c ∧ a ≤ b ∧ b ≤ c) ∧
    (s.count = 1 →
      ∃ x, s.values = [x] ∧ stats_Q1 s = some x ∧
        stats_median s = some x ∧ stats_Q3 s = some x) := by
  constructor
  · intro h3
    have hs := stats_sort_values_sorted hwf
    have hlen : (stats_sort_values s).length = s.count :=
      stats_sort_values_length s
    obtain ⟨a, ha⟩ := stats_Q1_isSome (s := s) (by omega)
    obtain ⟨c, hc⟩ := stats_Q3_isSome (s := s) (by omega)
    have hmed : stats_median s = midRange (stats_sort_values s) 0 s.count :=
      rfl
    obtain ⟨b, hb⟩ : ∃ b, midRange (stats_sort_values s) 0 s.count = some b :=
      midRange_isSome (by omega)
    refine ⟨a, b, c, ha, by rw [hmed, hb], hc, ?_, ?_⟩
    · -- Q1 <= median
      have ha' := (stats_Q1_spec (s := s) (by omega)) ▸ ha
      have haU : a ≤ (stats_sort_values s).getD (s.count / 2 - 1) 0 := by
        have := (midRange_bounds hs (by omega) (by omega) ha').2
        simpa using this
      have hbL := midRange_ge_lowerMid hs (by omega) (by omega) hb
      simp only [Nat.zero_add] at hbL
      exact le_trans haU hbL
    · -- median <= Q3
      have hc' := (stats_Q3_spec (s := s) (by omega)) ▸ hc
      have hbU := midRange_le_upperMid hs (by omega) (by omega) hb
      simp only [Nat.zero_add] at hbU
      have hcL : (stats_sort_values s).getD (q3Start s.count) 0 ≤ c :=
        (midRange_bounds hs (q3Start_lt (by omega)) (by omega) hc').1
      refine le_trans hbU (le_trans ?_ hcL)
      exact sorted_getD_mono hs (by simpa using q3Start_ge s.count)
        (by rw [hlen]; exact q3Start_lt (by omega))
  · intro h1
    obtain ⟨x, hx⟩ := count_one_values h1
    have hsv := stats_sort_values_count_one hx
    refine ⟨x, hx, ?_, ?_, ?_⟩
    · unfold stats_Q1
      rw [if_pos h1, hx]
      rfl
    · have : stats_median s = midRange (stats_sort_values s) 0 s.count := rfl
      rw [this, hsv, h1]
      rfl
    · unfold stats_Q3
      rw [if_pos h1, hx]
      rfl

theorem C8_quartile_median_order_witness :
    ∃ a b c, stats_Q1 ⟨6, 14, [1, 2, 3], true⟩ = some a ∧
      stats_median ⟨6, 14, [1, 2, 3], true⟩ = some b ∧
      stats_Q3 ⟨6, 14, [1, 2, 3], true⟩ = some c ∧ a ≤ b ∧ b ≤ c :=
  (C8_quartile_median_order ⟨6, 14, [1, 2, 3], true⟩ (by decide)).1 (by decide)

/-! ## Whisker lemmas -/

theorem whisker_scan_some {p : ℚ → Bool} {l : List ℚ} (h : l ≠ []) :
    ∃ y, whisker_scan p l = some y := by
  induction l with
  | nil => exact absurd rfl h
  | cons x xs ih =>
    cases xs with
    | nil => exact ⟨x, rfl⟩
    | cons y rest =>
      by_cases hp : p x
      · exact ⟨x, by simp [whisker_scan, hp]⟩
      · obtain ⟨z, hz⟩ := ih (by simp)
        exact ⟨z, by simp [whisker_scan, hp, hz]⟩

/-- If the sorted list holds a witness at or above the threshold and below
`B`, then the upward whisker scan stops at a value at most `B`. -/
theorem whisker_scan_le_of_witness {t B : ℚ} (l : List ℚ) :
    l.Sorted (· ≤ ·) → ∀ w ∈ l, t ≤ w → w ≤ B →
    ∃ y, whisker_scan (fun v => decide (t ≤ v)) l = some y ∧ y ≤ B := by
  induction l with
  | nil => intro _ w hw; simp at hw
  | cons x xs ih =>
    intro hs w hw htw hwB
    cases xs with
    | nil =>
      have hwx : w = x := by simpa using hw
      exact ⟨x, rfl, hwx ▸ hwB⟩
    | cons y rest =>
      by_cases hp : t ≤ x
      · refine ⟨x, by simp [whisker_scan, hp], ?_⟩
        rcases List.mem_cons.mp hw with rfl | hw'
        · exact hwB
        · exact le_trans (List.rel_of_sorted_cons hs w hw') hwB
      · have hw' : w ∈ y :: rest := by
          rcases List.mem_cons.mp hw with rfl | h'
          · exact absurd htw hp
          · exact h'
        obtain ⟨z, hz, hzB⟩ := ih hs.of_cons w hw' htw hwB
        exact ⟨z, by simp [whisker_scan, hp, hz], hzB⟩

/-- Mirror image for the downward scan over the reversed (descending)
list: a witness at or below the threshold and above `B` makes the scan
stop at a value at least `B`. -/
theorem whisker_scan_ge_of_witness {t B : ℚ} (l : List ℚ) :
    l.Sorted (· ≥ ·) → ∀ w ∈ l, w ≤ t → B ≤ w →
    ∃ y, whisker_scan (fun v => decide (v ≤ t)) l = some y ∧ B ≤ y := by
  induction l with
  | nil => intro _ w hw; simp at hw
  | cons x xs ih =>
    intro hs w hw hwt hBw
    cases xs with
    | nil =>
      have hwx : w = x := by simpa using hw
      exact ⟨x, rfl, hwx ▸ hBw⟩
    | cons y rest =>
      by_cases hp : x ≤ t
      · refine ⟨x, by simp [whisker_scan, hp], ?_⟩
        rcases List.mem_cons.mp hw with rfl | hw'
        · exact hBw
        · exact le_trans hBw (List.rel_of_sorted_cons hs w hw')
      · have hw' : w ∈ y :: rest := by
          rcases List.mem_cons.mp hw with rfl | h'
          · exact absurd hwt hp
          · exact h'
        obtain ⟨z, hz, hzB⟩ := ih hs.of_cons w hw' hwt hBw
        exact ⟨z, by simp [whisker_scan, hp, hz], hzB⟩

theorem stats_Q1_count_one {s : Stats} {x : ℚ} (h1 : s.count = 1)
    (hx : s.values = [x]) {q : ℚ} (hq : stats_Q1 s = some q) : q = x := by
  unfold stats_Q1 at hq
  rw [if_pos h1, hx] at hq
  simpa using hq.symm

theorem stats_Q3_count_one {s : Stats} {x : ℚ} (h1 : s.count = 1)
    (hx : s.values = [x]) {q : ℚ} (hq : stats_Q3 s = some q) : q = x := by
  unfold stats_Q3 at hq
  rw [if_pos h1, hx] at hq
  simpa using hq.symm

/-- There is a stored value between the low-whisker threshold and `Q1`. -/
theorem Q1_witness {s : Stats} (hwf : s.WF) (h1 : 1 ≤ s.count) {q1 q3 : ℚ}
    (hq1 : stats_Q1 s = some q1) (hq3 : stats_Q3 s = some q3) :
    ∃ w ∈ stats_sort_values s, q1 - 3/2 * (q3 - q1) ≤ w ∧ w ≤ q1 := by
  have hs := stats_sort_values_sorted hwf
  have hlen := stats_sort_values_length s
  by_cases hone : s.count = 1
  · obtain ⟨x, hx⟩ := count_one_values hone
    have hsv := stats_sort_values_count_one hx
    have hq1x : q1 = x := stats_Q1_count_one hone hx hq1
    have hq3x : q3 = x := stats_Q3_count_one hone hx hq3
    exact ⟨x, by simp [hsv], by rw [hq1x, hq3x]; linarith,
      by rw [hq1x]⟩
  · have h2 : 2 ≤ s.count := by omega
    have hq1' : midRange (stats_sort_values s) 0 (s.count / 2) = some q1 :=
      (stats_Q1_spec h2) ▸ hq1
    have hq3' : midRange (stats_sort_values s) (q3Start s.count) s.count =
        some q3 := (stats_Q3_spec h2) ▸ hq3
    have hq3L : (stats_sort_values s).getD (q3Start s.count) 0 ≤ q3 :=
      (midRange_bounds hs (q3Start_lt h2) (by omega) hq3').1
    have hq3S := q3Start_ge s.count
    have hq3Slt := q3Start_lt h2
    rcases midRange_cases (v := stats_sort_values s)
        (show (0:ℕ) < s.count / 2 by omega) with
      ⟨i, _, hih, heq⟩ | ⟨i, hi0, hih, heq⟩
    · rw [heq] at hq1'
      have hq1v : q1 = (stats_sort_values s).getD i 0 := by
        injection hq1' with h
        exact h.symm
      have hmono : (stats_sort_values s).getD i 0 ≤
          (stats_sort_values s).getD (q3Start s.count) 0 :=
        sorted_getD_mono hs (by omega) (by omega)
      refine ⟨q1, by rw [hq1v]; exact getD_mem (by omega), by linarith, le_refl _⟩
    · rw [heq] at hq1'
      have hq1v : q1 = ((stats_sort_values s).getD (i - 1) 0 +
          (stats_sort_values s).getD i 0) / 2 := by
        injection hq1' with h
        exact h.symm
      have hab : (stats_sort_values s).getD (i - 1) 0 ≤
          (stats_sort_values s).getD i 0 :=
        sorted_getD_mono hs (by omega) (by omega)
      have hbq3 : (stats_sort_values s).getD i 0 ≤ q3 := by
        refine le_trans (sorted_getD_mono hs (by omega) (by omega)) hq3L
      refine ⟨(stats_sort_values s).getD (i - 1) 0, getD_mem (by omega), ?_, ?_⟩
      · rw [hq1v]; linarith
      · rw [hq1v]; linarith

/-- There is a stored value between `Q3` and the high-whisker threshold. -/
theorem Q3_witness {s : Stats} (hwf : s.WF) (h1 : 1 ≤ s.count) {q1 q3 : ℚ}
    (hq1 : stats_Q1 s = some q1) (hq3 : stats_Q3 s = some q3) :
    ∃ w ∈ stats_sort_values s, q3 ≤ w ∧ w ≤ q3 + 3/2 * (q3 - q1) := by
  have hs := stats_sort_values_sorted hwf
  have hlen := stats_sort_values_length s
  by_cases hone : s.count = 1
  · obtain ⟨x, hx⟩ := count_one_values hone
    have hsv := stats_sort_values_count_one hx
    have hq1x : q1 = x := stats_Q1_count_one hone hx hq1
    have hq3x : q3 = x := stats_Q3_count_one hone hx hq3
    exact ⟨x, by simp [hsv], by rw [hq3x],
      by rw [hq1x, hq3x]; linarith⟩
  · have h2 : 2 ≤ s.count := by omega
    have hq1' : midRange (stats_sort_values s) 0 (s.count / 2) = some q1 :=
      (stats_Q1_spec h2) ▸ hq1
    have hq3' : midRange (stats_sort_values s) (q3Start s.count) s.count =
        some q3 := (stats_Q3_spec h2) ▸ hq3
    have hq1U : q1 ≤ (stats_sort_values s).getD (s.count / 2 - 1) 0 := by
      have := (midRange_bounds hs (show (0:ℕ) < s.count / 2 by omega)
        (by omega) hq1').2
      simpa using this
    have hq3S := q3Start_ge s.count
    have hq3Slt := q3Start_lt h2
    rcases midRange_cases (v := stats_sort_values s) hq3Slt with
      ⟨i, hiS, hic, heq⟩ | ⟨i, hiS, hic, heq⟩
    · rw [heq] at hq3'
      have hq3v : q3 = (stats_sort_values s).getD i 0 := by
        injection hq3' with h
        exact h.symm
      have hmono : (stats_sort_values s).getD (s.count / 2 - 1) 0 ≤
          (stats_sort_values s).getD i 0 :=
        sorted_getD_mono hs (by omega) (by omega)
      refine ⟨q3, by rw [hq3v]; exact getD_mem (by omega), le_refl _, by linarith⟩
    · rw [heq] at hq3'
      have hq3v : q3 = ((stats_sort_values s).getD (i - 1) 0 +
          (stats_sort_values s).getD i 0) / 2 := by
        injection hq3' with h
        exact h.symm
      have hab : (stats_sort_values s).getD (i - 1) 0 ≤
          (stats_sort_values s).getD i 0 :=
        sorted_getD_mono hs (by omega) (by omega)
      have hq1a : q1 ≤ (stats_sort_values s).getD (i - 1) 0 := by
        refine le_trans hq1U (sorted_getD_mono hs (by omega) (by omega))
      refine ⟨(stats_sort_values s).getD i 0, getD_mem (by omega), ?_, ?_⟩
      · rw [hq3v]; linarith
      · rw [hq3v]; linarith

theorem stats_whisker_low_eq {s : Stats} (h1 : 1 ≤ s.count) {q1 q3 : ℚ}
    (hq1 : stats_Q1 s = some q1) (hq3 : stats_Q3 s = some q3) :
    stats_whisker_low s =
      whisker_scan (fun v => decide (q1 - 3/2 * (q3 - q1) ≤ v))
        (stats_sort_values s) := by
  unfold stats_whisker_low
  rw [if_neg (by omega), hq1, hq3]

theorem stats_whisker_high_eq {s : Stats} (h1 : 1 ≤ s.count) {q1 q3 : ℚ}
    (hq1 : stats_Q1 s = some q1) (hq3 : stats_Q3 s = some q3) :
    stats_whisker_high s =
      whisker_scan (fun v => decide (v ≤ q3 + 3/2 * (q3 - q1)))
        (stats_sort_values s).reverse := by
  unfold stats_whisker_high
  rw [if_neg (by omega), hq1, hq3]

/-! ## Claim C9 -/

/-- C9, amended: for every well-formed accumulator with `count >= 1`,
the low whisker is at most `Q1` and the high whisker is at least `Q3`.
(The claim's "with no restriction on count" fails at `count == 0`, where
all four statistics are NaN — see the counterexample.) -/
theorem C9_whiskers_bracket_quartiles (s : Stats) (hwf : s.WF)
    (h1 : 1 ≤ s.count) :
    ∃ wl q1 q3 wh,
      stats_whisker_low s = some wl ∧ stats_Q1 s = some q1 ∧
      stats_Q3 s = some q3 ∧ stats_whisker_high s = some wh ∧
      wl ≤ q1 ∧ q3 ≤ wh := by
  obtain ⟨q1, hq1⟩ := stats_Q1_isSome h1
  obtain ⟨q3, hq3⟩ := stats_Q3_isSome h1
  have hs := stats_sort_values_sorted hwf
  obtain ⟨w, hwmem, hwt, hwq1⟩ := Q1_witness hwf h1 hq1 hq3
  obtain ⟨wl, hwl, hwlB⟩ :=
    whisker_scan_le_of_witness (stats_sort_values s) hs w hwmem hwt hwq1
  obtain ⟨w2, hw2mem, hw2q3, hw2t⟩ := Q3_witness hwf h1 hq1 hq3
  have hsrev : (stats_sort_values s).reverse.Sorted (· ≥ ·) :=
    List.pairwise_reverse.mpr (by simpa [flip] using hs)
  obtain ⟨wh, hwh, hwhB⟩ :=
    whisker_scan_ge_of_witness (stats_sort_values s).reverse hsrev w2
      (List.mem_reverse.mpr hw2mem) hw2t hw2q3
  refine ⟨wl, q1, q3, wh, ?_, hq1, hq3, ?_, hwlB, hwhB⟩
  · rw [stats_whisker_low_eq h1 hq1 hq3]
    exact hwl
  · rw [stats_whisker_high_eq h1 hq1 hq3]
    exact hwh

theorem C9_whiskers_bracket_quartiles_witness :
    ∃ wl q1 q3 wh,
      stats_whisker_low ⟨1015, 1000055, [1, 2, 3, 4, 5, 1000], true⟩ = some wl ∧
      stats_Q1 ⟨1015, 1000055, [1, 2, 3, 4, 5, 1000], true⟩ = some q1 ∧
      stats_Q3 ⟨1015, 1000055, [1, 2, 3, 4, 5, 1000], true⟩ = some q3 ∧
      stats_whisker_high ⟨1015, 1000055, [1, 2, 3, 4, 5, 1000], true⟩ = some wh ∧
      wl ≤ q1 ∧ q3 ≤ wh :=
  C9_whiskers_bracket_quartiles ⟨1015, 1000055, [1, 2, 3, 4, 5, 1000], true⟩
    (by decide) (by decide)

/-- C9, counterexample to the claim as stated ("no restriction on
count"): on the empty accumulator every one of the four statistics is NaN
(`none`), and in C `NAN <= NAN` is false, so `whisker_low <= Q1` does not
hold at `count == 0`. -/
theorem C9_count_zero_counterexample :
    stats_whisker_low stats_reset_state = none ∧
    stats_Q1 stats_reset_state = none ∧
    stats_Q3 stats_reset_state = none ∧
    stats_whisker_high stats_reset_state = none ∧
    ¬ ∃ wl q1, stats_whisker_low stats_reset_state = some wl ∧
        stats_Q1 stats_reset_state = some q1 ∧ wl ≤ q1 := by
  refine ⟨by decide, by decide, by decide, by decide, ?_⟩
  rintro ⟨wl, q1, h, -, -⟩
  have hnone : stats_whisker_low stats_reset_state = none := by decide
  rw [hnone] at h
  exact Option.noConfusion h

/-! ## Claim C2 -/

/-- C2: inserting a NaN or infinite value into `stats_insert` (or a pair
with a NaN/infinite coordinate into `stats2_insert`) returns with the
accumulator record completely unchanged — count, sums, the stored value
buffer, and the per-axis min/max are all as before — and, the functions
having no error channel at all, no error is reported. -/
theorem C2_nonfinite_insert_noop :
    (∀ (s : Stats) (v : DVal), v.isnan = true ∨ v.isinf = true →
      stats_insert s v = s) ∧
    (∀ (s : Stats2) (x y : DVal),
      x.isnan = true ∨ x.isinf = true ∨ y.isnan = true ∨ y.isinf = true →
      stats2_insert s x y = s) := by
  constructor
  · intro s v hv
    unfold stats_insert
    rcases hv with h | h <;> simp [h]
  · intro s x y hv
    unfold stats2_insert
    rcases hv with h | h | h | h <;> simp [h]

theorem C2_nonfinite_insert_noop_witness :
    stats_insert stats_reset_state .nan = stats_reset_state ∧
    stats2_insert stats2_reset_state .inf (.fin 3) = stats2_reset_state :=
  ⟨C2_nonfinite_insert_noop.1 _ _ (Or.inl rfl),
   C2_nonfinite_insert_noop.2 _ _ _ (Or.inr (Or.inl rfl))⟩

/-! ## Claim C3 -/

/-- The spec's Q1 rule, stated directly over the fully sorted list of
stored values: the sole value for a single observation, otherwise the
middle-element rule on the sub-range `[0, count/2)`. -/
def specQ1 (v : List ℚ) : Option ℚ :=
  if v.length = 1 then some (v.getD 0 0)
  else midRange v 0 (v.length / 2)

/-- The spec's Q3 rule over the sorted list: the sole value for one
observation, the middle-element rule on `[count/2, count)` for an even
count and on `[count/2 + 1, count)` for an odd one. -/
def specQ3 (v : List ℚ) : Option ℚ :=
  if v.length = 1 then some (v.getD 0 0)
  else if v.length % 2 = 0 then midRange v (v.length / 2) v.length
  else midRange v (v.length / 2 + 1) v.length

theorem stats_sort_values_eq_insertionSort {s : Stats} (hwf : s.WF) :
    stats_sort_values s = s.values.insertionSort (· ≤ ·) := by
  unfold stats_sort_values
  cases hd : s.dirty with
  | true => simp
  | false => simpa using ((hwf hd).insertionSort_eq).symm

/-- C3: for every well-formed accumulator with `count >= 1`, the code's
`stats_Q1`/`stats_Q3` agree with the spec's exact non-standard rule
applied to the sorted list of stored values. -/
theorem C3_quartiles_follow_spec_rule (s : Stats) (hwf : s.WF)
    (h1 : 1 ≤ s.count) :
    stats_Q1 s = specQ1 (s.values.insertionSort (· ≤ ·)) ∧
    stats_Q3 s = specQ3 (s.values.insertionSort (· ≤ ·)) := by
  have hsv := stats_sort_values_eq_insertionSort hwf
  have hlen : (s.values.insertionSort (· ≤ ·)).length = s.count :=
    List.length_insertionSort _ _
  constructor
  · by_cases hone : s.count = 1
    · obtain ⟨x, hx⟩ := count_one_values hone
      have : s.values.insertionSort (· ≤ ·) = [x] := by
        rw [← hsv]
        exact stats_sort_values_count_one hx
      unfold stats_Q1 specQ1
      rw [if_pos hone, this, hx]
      simp
    · rw [stats_Q1_spec (by omega)]
      unfold specQ1
      rw [hlen, hsv]
      simp only [if_neg hone]
  · by_cases hone : s.count = 1
    · obtain ⟨x, hx⟩ := count_one_values hone
      have : s.values.insertionSort (· ≤ ·) = [x] := by
        rw [← hsv]
        exact stats_sort_values_count_one hx
      unfold stats_Q3 specQ3
      rw [if_pos hone, this, hx]
      simp
    · unfold stats_Q3 specQ3 stats_middle_between
      rw [hlen, hsv]
      simp only [if_neg hone]

theorem C3_quartiles_follow_spec_rule_witness :
    stats_Q1 ⟨10, 30, [1, 2, 3, 4], true⟩ =
      specQ1 ([1, 2, 3, 4].insertionSort (· ≤ ·)) ∧
    stats_Q3 ⟨10, 30, [1, 2, 3, 4], true⟩ =
      specQ3 ([1, 2, 3, 4].insertionSort (· ≤ ·)) :=
  C3_quartiles_follow_spec_rule ⟨10, 30, [1, 2, 3, 4], true⟩ (by decide)
    (by decide)

/-! ## Claim C4 -/

/-- C4, counterexample to the claim as stated: for stored values
`{-5, 5}` the maximum (5) differs from the minimum (-5), yet the code
nudges anyway — the comparison is between the absolute values — and
returns `5/1000000` instead of the un-nudged formula value
`(|5| - |-5|) / 1 = 0`. -/
theorem C4_nudge_counterexample :
    stats_maximum ⟨0, 50, [-5, 5], true⟩ = some 5 ∧
    stats_minimum ⟨0, 50, [-5, 5], true⟩ = some (-5) ∧
    (5 : ℚ) ≠ -5 ∧
    stats_ideal_bucket_size ⟨0, 50, [-5, 5], true⟩ = .fin (1/200000) ∧
    (1/200000 : ℚ) ≠ (|(5 : ℚ)| - |(-5 : ℚ)|) / ((Nat.sqrt 2 : ℕ) : ℚ) := by
  have hmax : stats_maximum ⟨0, 50, [-5, 5], true⟩ = some 5 := by decide
  have hmin : stats_minimum ⟨0, 50, [-5, 5], true⟩ = some (-5) := by decide
  have hcnt : (⟨0, 50, [-5, 5], true⟩ : Stats).count = 2 := by decide
  have hsq : Nat.sqrt 2 = 1 := by norm_num
  refine ⟨hmax, hmin, by norm_num, ?_, by rw [hsq]; norm_num⟩
  unfold stats_ideal_bucket_size
  rw [hmax, hmin, hcnt, hsq]
  norm_num

/-- C4, amended: for `count >= 1`, `stats_ideal_bucket_size` is
`(|max| - |min|) / floor(sqrt(count))` with the nudge applied exactly
when `|maximum| == |minimum|` (not when `maximum == minimum`): in the
nudged case the numerator becomes `|max| / 10^6`. -/
theorem C4_ideal_bucket_size (s : Stats) (_h1 : 1 ≤ s.count) :
    ∀ mx mn, stats_maximum s = some mx → stats_minimum s = some mn →
      (|mx| ≠ |mn| →
        stats_ideal_bucket_size s =
          .fin ((|mx| - |mn|) / ((Nat.sqrt s.count : ℕ) : ℚ))) ∧
      (|mx| = |mn| →
        stats_ideal_bucket_size s =
          .fin ((|mx| / 1000000) / ((Nat.sqrt s.count : ℕ) : ℚ))) := by
  intro mx mn hmx hmn
  unfold stats_ideal_bucket_size
  rw [hmx, hmn]
  constructor
  · intro hne
    simp only [if_neg hne]
  · intro heq
    simp only [if_pos heq]
    congr 1
    rw [heq]
    ring

theorem C4_ideal_bucket_size_witness :
    (|(2 : ℚ)| ≠ |(1 : ℚ)|) ∧
    stats_ideal_bucket_size ⟨3, 5, [1, 2], true⟩ =
      .fin ((|(2 : ℚ)| - |(1 : ℚ)|) / ((Nat.sqrt 2 : ℕ) : ℚ)) :=
  ⟨by norm_num,
   ((C4_ideal_bucket_size ⟨3, 5, [1, 2], true⟩ (by decide)) 2 1
     (by decide) (by decide)).1 (by norm_num)⟩

/-! ## Claim C7 -/

/-- Justification of the exact-arithmetic modelling of the regression
slope: with both variances positive, the C expression
`correlation() * (stddev_y() / stddev_x())`, computed with real square
roots of the variances, equals `covariance / variance_x`. -/
theorem sqrt_slope_eq (vx vy cov : ℚ) (hx : 0 < vx) (hy : 0 < vy) :
    ((cov : ℝ) / (Real.sqrt vx * Real.sqrt vy)) *
      (Real.sqrt vy / Real.sqrt vx) = (cov : ℝ) / vx := by
  have hx0 : (0 : ℝ) < (vx : ℝ) := by exact_mod_cast hx
  have hy0 : (0 : ℝ) < (vy : ℝ) := by exact_mod_cast hy
  have hx' : (0 : ℝ) < Real.sqrt vx := Real.sqrt_pos.mpr hx0
  have hy' : (0 : ℝ) < Real.sqrt vy := Real.sqrt_pos.mpr hy0
  have hxx : Real.sqrt vx * Real.sqrt vx = (vx : ℝ) :=
    Real.mul_self_sqrt (le_of_lt hx0)
  rw [div_mul_div_comm]
  rw [show Real.sqrt vx * Real.sqrt vy * Real.sqrt vx =
      (Real.sqrt vx * Real.sqrt vx) * Real.sqrt vy by ring, hxx]
  rw [mul_comm ((vx : ℝ)) (Real.sqrt vy), ← div_div]
  rw [mul_div_assoc, div_self (ne_of_gt hy'), mul_one]

/-- C7: `stats2_linear_regression` succeeds exactly when `count >= 2` and
the slope is finite — in exact arithmetic, when both variances are
positive (`sqrt_slope_eq`; a non-positive variance makes a stddev zero or
NaN and hence the slope NaN or infinite) — and then returns the slope
`correlation * (stddev_y / stddev_x)` (stated sqrt-free as
`slope * variance_x = covariance`) and the intercept
`mean_y - slope * mean_x`.  (The C additionally fails on NULL output
pointers, which have no counterpart in the model.) -/
theorem C7_linear_regression_success_iff (s : Stats2) :
    ((stats2_linear_regression s).isSome ↔
      2 ≤ s.count ∧ 0 < stats2_variance_x s ∧ 0 < stats2_variance_y s) ∧
    (∀ a b, stats2_linear_regression s = some (a, b) →
      a * stats2_variance_x s = stats2_covariance s ∧
      b = stats2_mean_y s - a * stats2_mean_x s) := by
  constructor
  · unfold stats2_linear_regression
    by_cases h2 : s.count < 2
    · simp only [if_pos h2, Option.isSome_none]
      constructor
      · intro h
        exact absurd h (by simp)
      · intro ⟨h, _⟩
        omega
    · by_cases hv : 0 < stats2_variance_x s ∧ 0 < stats2_variance_y s
      · simp only [if_neg h2, if_pos hv, Option.isSome_some, true_iff]
        exact ⟨by omega, hv⟩
      · simp only [if_neg h2, if_neg hv, Option.isSome_none]
        constructor
        · intro h
          exact absurd h (by simp)
        · intro ⟨_, h⟩
          exact absurd h hv
  · intro a b hab
    unfold stats2_linear_regression at hab
    by_cases h2 : s.count < 2
    · rw [if_pos h2] at hab
      exact Option.noConfusion hab
    · by_cases hv : 0 < stats2_variance_x s ∧ 0 < stats2_variance_y s
      · rw [if_neg h2, if_pos hv] at hab
        have hone : stats2_covariance s / stats2_variance_x s = a ∧
            s.sum_y / s.count -
              stats2_covariance s / stats2_variance_x s * s.sum_x / s.count
              = b := by
          have := Option.some.inj hab
          exact ⟨congrArg Prod.fst this, congrArg Prod.snd this⟩
        obtain ⟨ha, hb⟩ := hone
        constructor
        · rw [← ha]
          exact div_mul_cancel₀ _ (ne_of_gt hv.1)
        · rw [← hb, ← ha]
          unfold stats2_mean_y stats2_mean_x
          ring
      · rw [if_neg h2, if_neg hv] at hab
        exact Option.noConfusion hab

theorem C7_linear_regression_success_iff_witness :
    stats2_linear_regression
      ⟨6, 12, 28, 14, 56, .fin 1, .fin 2, .fin 3, .fin 6, 3⟩ = some (2, 0) ∧
    2 * stats2_variance_x ⟨6, 12, 28, 14, 56, .fin 1, .fin 2, .fin 3, .fin 6, 3⟩
      = stats2_covariance ⟨6, 12, 28, 14, 56, .fin 1, .fin 2, .fin 3, .fin 6, 3⟩ ∧
    (0 : ℚ) = stats2_mean_y ⟨6, 12, 28, 14, 56, .fin 1, .fin 2, .fin 3, .fin 6, 3⟩
      - 2 * stats2_mean_x ⟨6, 12, 28, 14, 56, .fin 1, .fin 2, .fin 3, .fin 6, 3⟩ :=
  ⟨by
    norm_num [stats2_linear_regression, stats2_variance_x, stats2_variance_y,
      stats2_covariance, stats2_mean_x, stats2_mean_y],
   (C7_linear_regression_success_iff
     ⟨6, 12, 28, 14, 56, .fin 1, .fin 2, .fin 3, .fin 6, 3⟩).2 2 0 (by
    norm_num [stats2_linear_regression, stats2_variance_x, stats2_variance_y,
      stats2_covariance, stats2_mean_x, stats2_mean_y])⟩

/-! ## Histogram lemmas -/

theorem histogram_insert_width (h : Histogram) (v : ℚ) :
    (histogram_insert h v).width = h.width := rfl

theorem histBucketsInsert_ne_nil (b : ℚ) (l : List (ℚ × Nat)) :
    histBucketsInsert b l ≠ [] := by
  cases l with
  | nil => simp [histBucketsInsert]
  | cons p rest =>
    obtain ⟨c, n⟩ := p
    unfold histBucketsInsert
    split_ifs <;> simp

theorem histBucketsInsert_fst {b : ℚ} {l : List (ℚ × Nat)} {x : ℚ} :
    x ∈ (histBucketsInsert b l).map Prod.fst ↔
      x = b ∨ x ∈ l.map Prod.fst := by
  induction l with
  | nil => simp [histBucketsInsert]
  | cons p rest ih =>
    obtain ⟨c, n⟩ := p
    unfold histBucketsInsert
    split_ifs with h1 h2
    · simp only [List.map_cons, List.mem_cons]
    · subst h2
      simp only [List.map_cons, List.mem_cons]
      tauto
    · simp only [List.map_cons, List.mem_cons, ih]
      tauto

theorem histBucketsInsert_snd_sum (b : ℚ) (l : List (ℚ × Nat)) :
    ((histBucketsInsert b l).map Prod.snd).sum =
      (l.map Prod.snd).sum + 1 := by
  induction l with
  | nil => simp [histBucketsInsert]
  | cons p rest ih =>
    obtain ⟨c, n⟩ := p
    unfold histBucketsInsert
    split_ifs with h1 h2
    · simp only [List.map_cons, List.sum_cons]
      omega
    · simp only [List.map_cons, List.sum_cons]
      omega
    · simp only [List.map_cons, List.sum_cons, ih]
      omega

theorem foldl_insert_width (L : List ℚ) (h0 : Histogram) :
    (L.foldl (fun h v => histogram_insert h v) h0).width = h0.width := by
  induction L generalizing h0 with
  | nil => rfl
  | cons v rest ih => simpa using ih (histogram_insert h0 v)

theorem foldl_insert_total (L : List ℚ) (h0 : Histogram) :
    histogram_total (L.foldl (fun h v => histogram_insert h v) h0) =
      histogram_total h0 + L.length := by
  induction L generalizing h0 with
  | nil => simp
  | cons v rest ih =>
    simp only [List.foldl_cons, List.length_cons]
    rw [ih (histogram_insert h0 v)]
    have : histogram_total (histogram_insert h0 v) =
        histogram_total h0 + 1 := histBucketsInsert_snd_sum _ _
    omega

theorem foldl_insert_ne_nil (L : List ℚ) (h0 : Histogram)
    (h : L ≠ [] ∨ h0.buckets ≠ []) :
    (L.foldl (fun h v => histogram_insert h v) h0).buckets ≠ [] := by
  induction L generalizing h0 with
  | nil =>
    rcases h with h | h
    · exact absurd rfl h
    · simpa using h
  | cons v rest ih =>
    simp only [List.foldl_cons]
    exact ih (histogram_insert h0 v) (Or.inr (histBucketsInsert_ne_nil _ _))

theorem foldl_insert_fst (L : List ℚ) (h0 : Histogram) {x : ℚ} :
    x ∈ histogram_buckets (L.foldl (fun h v => histogram_insert h v) h0) ↔
      x ∈ histogram_buckets h0 ∨ ∃ v ∈ L, bucketStart h0.width v = x := by
  induction L generalizing h0 with
  | nil => simp
  | cons v rest ih =>
    simp only [List.foldl_cons]
    rw [ih (histogram_insert h0 v)]
    have hmem : x ∈ histogram_buckets (histogram_insert h0 v) ↔
        x = bucketStart h0.width v ∨ x ∈ histogram_buckets h0 :=
      histBucketsInsert_fst
    rw [hmem, histogram_insert_width]
    simp only [List.mem_cons]
    constructor
    · rintro ((h | h) | ⟨v', hv', hbs⟩)
      · exact Or.inr ⟨v, Or.inl rfl, h.symm⟩
      · exact Or.inl h
      · exact Or.inr ⟨v', Or.inr hv', hbs⟩
    · rintro (h | ⟨v', (rfl | hv'), hbs⟩)
      · exact Or.inl (Or.inr h)
      · exact Or.inl (Or.inl hbs.symm)
      · exact Or.inr ⟨v', hv', hbs⟩

theorem foldl_insertIf_width (low high : ℚ) (L : List ℚ) (h0 : Histogram) :
    (L.foldl (fun h v =>
      if low ≤ v ∧ v ≤ high then histogram_insert h v else h) h0).width =
      h0.width := by
  induction L generalizing h0 with
  | nil => rfl
  | cons v rest ih =>
    simp only [List.foldl_cons]
    by_cases hc : low ≤ v ∧ v ≤ high
    · rw [if_pos hc]
      simpa using ih (histogram_insert h0 v)
    · rw [if_neg hc]
      exact ih h0

theorem foldl_insertIf_fst (low high : ℚ) (L : List ℚ) (h0 : Histogram)
    {x : ℚ} :
    x ∈ histogram_buckets (L.foldl (fun h v =>
        if low ≤ v ∧ v ≤ high then histogram_insert h v else h) h0) ↔
      x ∈ histogram_buckets h0 ∨
        ∃ v ∈ L, (low ≤ v ∧ v ≤ high) ∧ bucketStart h0.width v = x := by
  induction L generalizing h0 with
  | nil => simp
  | cons v rest ih =>
    simp only [List.foldl_cons]
    by_cases hc : low ≤ v ∧ v ≤ high
    · rw [if_pos hc]
      rw [ih (histogram_insert h0 v)]
      have hmem : x ∈ histogram_buckets (histogram_insert h0 v) ↔
          x = bucketStart h0.width v ∨ x ∈ histogram_buckets h0 :=
        histBucketsInsert_fst
      rw [hmem, histogram_insert_width]
      simp only [List.mem_cons]
      constructor
      · rintro ((h | h) | ⟨v', hv', hcond, hbs⟩)
        · exact Or.inr ⟨v, Or.inl rfl, hc, h.symm⟩
        · exact Or.inl h
        · exact Or.inr ⟨v', Or.inr hv', hcond, hbs⟩
      · rintro (h | ⟨v', (rfl | hv'), hcond, hbs⟩)
        · exact Or.inl (Or.inr h)
        · exact Or.inl (Or.inl hbs.symm)
        · exact Or.inr ⟨v', hv', hcond, hbs⟩
    · rw [if_neg hc]
      rw [ih h0]
      simp only [List.mem_cons]
      constructor
      · rintro (h | ⟨v', hv', hcond, hbs⟩)
        · exact Or.inl h
        · exact Or.inr ⟨v', Or.inr hv', hcond, hbs⟩
      · rintro (h | ⟨v', (rfl | hv'), hcond, hbs⟩)
        · exact Or.inl h
        · exact absurd hcond hc
        · exact Or.inr ⟨v', hv', hcond, hbs⟩

/-- Bucket quantization bounds: with a positive width every value lands
in the bucket whose half-open interval contains it. -/
theorem bucketStart_bounds {q v : ℚ} (hq : 0 < q) :
    bucketStart (.fin q) v ≤ v ∧ v < bucketStart (.fin q) v + q := by
  unfold bucketStart
  constructor
  · calc (⌊v / q⌋ : ℚ) * q ≤ (v / q) * q :=
          mul_le_mul_of_nonneg_right (Int.floor_le (v / q)) (le_of_lt hq)
    _ = v := div_mul_cancel₀ v (ne_of_gt hq)
  · have h := Int.lt_floor_add_one (v / q)
    have h2 := mul_lt_mul_of_pos_right h hq
    calc v = (v / q) * q := (div_mul_cancel₀ v (ne_of_gt hq)).symm
    _ < ((⌊v / q⌋ : ℚ) + 1) * q := h2
    _ = (⌊v / q⌋ : ℚ) * q + q := by ring

theorem stats_sort_values_ne_nil {s : Stats} (h1 : 1 ≤ s.count) :
    stats_sort_values s ≠ [] := by
  intro hnil
  have hl := stats_sort_values_length s
  rw [hnil] at hl
  simp at hl
  omega

theorem stats_whisker_low_isSome {s : Stats} (h1 : 1 ≤ s.count) :
    ∃ lo, stats_whisker_low s = some lo := by
  obtain ⟨q1, hq1⟩ := stats_Q1_isSome h1
  obtain ⟨q3, hq3⟩ := stats_Q3_isSome h1
  rw [stats_whisker_low_eq h1 hq1 hq3]
  exact whisker_scan_some (stats_sort_values_ne_nil h1)

theorem stats_whisker_high_isSome {s : Stats} (h1 : 1 ≤ s.count) :
    ∃ hi, stats_whisker_high s = some hi := by
  obtain ⟨q1, hq1⟩ := stats_Q1_isSome h1
  obtain ⟨q3, hq3⟩ := stats_Q3_isSome h1
  rw [stats_whisker_high_eq h1 hq1 hq3]
  exact whisker_scan_some (by
    simpa using stats_sort_values_ne_nil h1)

theorem stats_build_histogram_discard_eq {s : Stats} (h1 : 1 ≤ s.count)
    {lo hi : ℚ} (hlo : stats_whisker_low s = some lo)
    (hhi : stats_whisker_high s = some hi) (w : DVal) :
    stats_build_histogram s w .discardOutliers =
      some ((stats_sort_values s).foldl
        (fun hist v =>
          if lo ≤ v ∧ v ≤ hi then histogram_insert hist v else hist)
        (histogram_create w)) := by
  unfold stats_build_histogram
  rw [if_neg (by omega), hlo, hhi]

theorem stats_build_histogram_keep_eq {s : Stats} (h1 : 1 ≤ s.count)
    (w : DVal) :
    stats_build_histogram s w .keepOutliers =
      some ((stats_sort_values s).foldl
        (fun hist v => histogram_insert hist v) (histogram_create w)) := by
  unfold stats_build_histogram
  rw [if_neg (by omega)]

/-! ## Claim C5 -/

/-- C5: for every well-formed accumulator and positive bucket width, the
discard-outliers histogram has no occupied bucket whose interval
`[b, b+width)` lies outside `[whisker_low, whisker_high]` (each occupied
bucket's interval meets the whisker range: `b <= whisker_high` and
`whisker_low < b + width`); the keep-outliers histogram buckets exactly
`count` values; and with `count == 0` neither build produces a
histogram. -/
theorem C5_build_histogram_range_and_total (s : Stats) (_hwf : s.WF)
    (q : ℚ) (hq : 0 < q) :
    (1 ≤ s.count →
      (∃ h lo hi,
        stats_build_histogram s (.fin q) .discardOutliers = some h ∧
        stats_whisker_low s = some lo ∧ stats_whisker_high s = some hi ∧
        ∀ b ∈ histogram_buckets h, b ≤ hi ∧ lo < b + q) ∧
      (∃ h, stats_build_histogram s (.fin q) .keepOutliers = some h ∧
        histogram_total h = s.count)) ∧
    (s.count = 0 →
      stats_build_histogram s (.fin q) .discardOutliers = none ∧
      stats_build_histogram s (.fin q) .keepOutliers = none) := by
  constructor
  · intro h1
    obtain ⟨lo, hlo⟩ := stats_whisker_low_isSome h1
    obtain ⟨hi, hhi⟩ := stats_whisker_high_isSome h1
    constructor
    · refine ⟨_, lo, hi, stats_build_histogram_discard_eq h1 hlo hhi _,
        hlo, hhi, ?_⟩
      intro b hb
      rw [foldl_insertIf_fst] at hb
      rcases hb with h | ⟨v, _, ⟨hvlo, hvhi⟩, hbs⟩
      · simp [histogram_buckets, histogram_create] at h
      · have hbounds := bucketStart_bounds (v := v) hq
        have hwidth : (histogram_create (DVal.fin q)).width = .fin q := rfl
        rw [hwidth] at hbs
        rw [← hbs]
        exact ⟨le_trans hbounds.1 hvhi, lt_of_le_of_lt hvlo hbounds.2⟩
    · refine ⟨_, stats_build_histogram_keep_eq h1 _, ?_⟩
      rw [foldl_insert_total]
      have : histogram_total (histogram_create (DVal.fin q)) = 0 := rfl
      rw [this, stats_sort_values_length]
      omega
  · intro h0
    unfold stats_build_histogram
    simp only [if_pos h0]
    constructor <;> trivial

theorem C5_build_histogram_range_and_total_witness :
    (∃ h lo hi,
      stats_build_histogram ⟨1015, 1000055, [1, 2, 3, 4, 5, 1000], true⟩
        (.fin 1) .discardOutliers = some h ∧
      stats_whisker_low ⟨1015, 1000055, [1, 2, 3, 4, 5, 1000], true⟩ = some lo ∧
      stats_whisker_high ⟨1015, 1000055, [1, 2, 3, 4, 5, 1000], true⟩ = some hi ∧
      ∀ b ∈ histogram_buckets h, b ≤ hi ∧ lo < b + 1) ∧
    (∃ h, stats_build_histogram ⟨1015, 1000055, [1, 2, 3, 4, 5, 1000], true⟩
        (.fin 1) .keepOutliers = some h ∧
      histogram_total h = (⟨1015, 1000055, [1, 2, 3, 4, 5, 1000], true⟩ :
        Stats).count) :=
  (C5_build_histogram_range_and_total
    ⟨1015, 1000055, [1, 2, 3, 4, 5, 1000], true⟩ (by decide) 1
    (by norm_num)).1 (by decide)

/-! ## Mordor lemmas -/

theorem mordor_build_dirty_false (m : Mordor) :
    (mordor_build_histograms m).dirty = false := by
  unfold mordor_build_histograms
  by_cases h : m.dirty = false
  · rw [if_pos h]
    exact h
  · rw [if_neg h]

theorem mordor_insert_dirty (m : Mordor) (k : String) (v : DVal) :
    (mordor_insert m k v).dirty = true := by
  unfold mordor_insert
  cases tableLookup m.table k <;> rfl

theorem mordor_build_cumulative_stats (m : Mordor) :
    (mordor_build_histograms m).cumulative_stats = m.cumulative_stats := by
  unfold mordor_build_histograms
  split_ifs <;> rfl

theorem tableLookup_mem {t : List (String × Mountain)} {k : String}
    {mtn : Mountain} (h : tableLookup t k = some mtn) :
    ∃ p ∈ t, p.1 = k ∧ p.2 = mtn := by
  unfold tableLookup at h
  cases hf : t.find? (fun p => p.1 = k) with
  | none =>
    rw [hf] at h
    exact Option.noConfusion h
  | some p =>
    rw [hf] at h
    have hmem := List.mem_of_find?_eq_some hf
    have hkey := List.find?_some hf
    refine ⟨p, hmem, by simpa using hkey, by injection h⟩

theorem mountainRebuild_stat (w : DVal) (mtn : Mountain) :
    (mountainRebuild w mtn).stat = mtn.stat := by
  unfold mountainRebuild
  split_ifs <;> rfl

/-- Every mountain with at least one stored value comes out of the
rebuild step holding a histogram at the shared bucket size. -/
theorem mountainRebuild_spec (w : DVal) (mtn : Mountain)
    (h1 : 1 ≤ mtn.stat.count) :
    ∃ h, (mountainRebuild w mtn).hist = some h ∧ h.width = w := by
  unfold mountainRebuild
  split_ifs with hskip
  · obtain ⟨hd, hsome, heq⟩ := hskip
    cases hh : mtn.hist with
    | none =>
      rw [hh] at hsome
      exact absurd hsome (by simp)
    | some h =>
      rw [hh] at heq
      exact ⟨h, rfl, DVal.eq_of_ieeeEq (by simpa using heq)⟩
  · rw [stats_build_histogram_keep_eq h1 w]
    refine ⟨_, rfl, ?_⟩
    rw [foldl_insert_width]
    rfl

/-- The alignment invariant of clean collector states: every series with
data holds a histogram at the shared bucket size. -/
def MordorAligned (m : Mordor) : Prop :=
  m.dirty = false →
    ∀ p ∈ m.table, 1 ≤ p.2.stat.count →
      ∃ h, p.2.hist = some h ∧ h.width = m.bucket_size

theorem mordor_aligned_of_reachable {m : Mordor} (hr : MordorReachable m) :
    MordorAligned m := by
  induction hr with
  | create =>
    intro hd
    exact absurd hd (by simp [mordor_create])
  | insert k v hm ih =>
    intro hd
    rw [mordor_insert_dirty] at hd
    exact absurd hd (by simp)
  | @build m hm ih =>
    intro hd p hp h1
    by_cases hmd : m.dirty = false
    · have heq : mordor_build_histograms m = m := by
        unfold mordor_build_histograms
        rw [if_pos hmd]
      rw [heq] at hp ⊢
      exact ih hmd p hp h1
    · have heq : mordor_build_histograms m =
          { m with
            bucket_size := stats_ideal_bucket_size m.cumulative_stats
            cumulative_hist := stats_build_histogram m.cumulative_stats
              (stats_ideal_bucket_size m.cumulative_stats) .keepOutliers
            table := m.table.map (fun p =>
              (p.1, mountainRebuild
                (stats_ideal_bucket_size m.cumulative_stats) p.2))
            dirty := false } := by
        unfold mordor_build_histograms
        rw [if_neg hmd]
      rw [heq] at hp ⊢
      simp only [List.mem_map] at hp
      obtain ⟨p0, hp0, hpe⟩ := hp
      have hstat : p.2.stat = p0.2.stat := by
        rw [← hpe]
        exact mountainRebuild_stat _ _
      rw [← hpe]
      exact mountainRebuild_spec _ _ (by rw [← hstat]; exact h1)

/-! ## Claim C1 -/

/-- C1, counterexample to the claim as stated: inserting a NaN under a
fresh key creates a series whose accumulator stays empty, and after the
rebuild that series is present but holds no histogram at all
(`stats_build_histogram` returns NULL for an empty accumulator), let
alone one at the shared bucket size. -/
theorem C1_nan_series_counterexample :
    MordorReachable (mordor_build_histograms
      (mordor_insert mordor_create "a" DVal.nan)) ∧
    ∃ mtn, tableLookup (mordor_build_histograms
        (mordor_insert mordor_create "a" DVal.nan)).table "a" = some mtn ∧
      mtn.hist = none :=
  ⟨.build (.insert "a" DVal.nan .create),
   ⟨⟨⟨0, 0, [], false⟩, none, false⟩, by decide, rfl⟩⟩

/-- C1, amended: after `mordor_build_histograms` returns, every series
whose accumulator holds at least one (finite) value has a histogram
whose bucket width equals the collector's shared `bucket_size`, for
every collector state reachable by any sequence of insertions and
rebuilds.  (A series created only by NaN/infinite insertions has an
empty accumulator and ends up with no histogram — see the
counterexample.) -/
theorem C1_rebuild_aligns_nonempty_series (m : Mordor)
    (hr : MordorReachable m) :
    ∀ key mtn,
      tableLookup (mordor_build_histograms m).table key = some mtn →
      1 ≤ mtn.stat.count →
      ∃ h, mtn.hist = some h ∧
        h.width = (mordor_build_histograms m).bucket_size := by
  intro key mtn hlk h1
  have hinv := mordor_aligned_of_reachable (MordorReachable.build hr)
  have hd := mordor_build_dirty_false m
  obtain ⟨p, hp, hk, hm⟩ := tableLookup_mem hlk
  have := hinv hd p hp (by rw [hm]; exact h1)
  rw [hm] at this
  exact this

theorem C1_rebuild_aligns_nonempty_series_witness :
    ∃ mtn,
      tableLookup (mordor_build_histograms
        (mordor_insert mordor_create "b" (.fin 2))).table "b" = some mtn ∧
      1 ≤ mtn.stat.count ∧
      ∃ h, mtn.hist = some h ∧
        h.width = (mordor_build_histograms
          (mordor_insert mordor_create "b" (.fin 2))).bucket_size := by
  have hins : mordor_insert mordor_create "b" (.fin 2) =
      ⟨[("b", ⟨⟨2, 4, [2], true⟩, none, true⟩)], ⟨2, 4, [2], true⟩,
        none, .fin 0, true⟩ := by
    norm_num [mordor_insert, mordor_create, tableLookup, stats_insert,
      stats_reset_state, DVal.isnan, DVal.isinf]
  have hideal : stats_ideal_bucket_size ⟨2, 4, [2], true⟩ =
      .fin (1/500000) := by
    norm_num [stats_ideal_bucket_size, stats_maximum, stats_minimum,
      stats_sort_values, Stats.count, List.insertionSort, List.orderedInsert]
  have hhist : stats_build_histogram ⟨2, 4, [2], true⟩ (.fin (1/500000))
      .keepOutliers = some ⟨.fin (1/500000), [(2, 1)]⟩ := by
    norm_num [stats_build_histogram, Stats.count, stats_sort_values,
      List.insertionSort, List.orderedInsert, histogram_insert,
      histogram_create, histBucketsInsert, bucketStart]
  have hbuild : mordor_build_histograms
      (mordor_insert mordor_create "b" (.fin 2)) =
      ⟨[("b", ⟨⟨2, 4, [2], true⟩, some ⟨.fin (1/500000), [(2, 1)]⟩, false⟩)],
        ⟨2, 4, [2], true⟩, some ⟨.fin (1/500000), [(2, 1)]⟩,
        .fin (1/500000), false⟩ := by
    rw [hins]
    norm_num [mordor_build_histograms, mountainRebuild, hideal, hhist]
  have hlk : tableLookup (mordor_build_histograms
      (mordor_insert mordor_create "b" (.fin 2))).table "b" =
      some ⟨⟨2, 4, [2], true⟩, some ⟨.fin (1/500000), [(2, 1)]⟩, false⟩ := by
    rw [hbuild]
    simp [tableLookup]
  exact ⟨_, hlk, by decide,
    C1_rebuild_aligns_nonempty_series _ (.insert "b" (.fin 2) .create)
      "b" _ hlk (by decide)⟩

/-! ## Claim C10 -/

/-- The cumulative-histogram invariant of clean collector states: data
implies a non-null cumulative histogram with at least one occupied
bucket; no data implies a NULL cumulative histogram. -/
def MordorCum (m : Mordor) : Prop :=
  m.dirty = false →
    (1 ≤ m.cumulative_stats.count →
      ∃ h, m.cumulative_hist = some h ∧ histogram_buckets h ≠ []) ∧
    (m.cumulative_stats.count = 0 → m.cumulative_hist = none)

theorem mordor_cum_of_reachable {m : Mordor} (hr : MordorReachable m) :
    MordorCum m := by
  induction hr with
  | create =>
    intro hd
    exact absurd hd (by simp [mordor_create])
  | insert k v hm ih =>
    intro hd
    rw [mordor_insert_dirty] at hd
    exact absurd hd (by simp)
  | @build m hm ih =>
    intro hd
    by_cases hmd : m.dirty = false
    · have heq : mordor_build_histograms m = m := by
        unfold mordor_build_histograms
        rw [if_pos hmd]
      rw [heq]
      exact ih hmd
    · have heq : mordor_build_histograms m =
          { m with
            bucket_size := stats_ideal_bucket_size m.cumulative_stats
            cumulative_hist := stats_build_histogram m.cumulative_stats
              (stats_ideal_bucket_size m.cumulative_stats) .keepOutliers
            table := m.table.map (fun p =>
              (p.1, mountainRebuild
                (stats_ideal_bucket_size m.cumulative_stats) p.2))
            dirty := false } := by
        unfold mordor_build_histograms
        rw [if_neg hmd]
      rw [heq]
      constructor
      · intro h1
        rw [stats_build_histogram_keep_eq h1]
        refine ⟨_, rfl, ?_⟩
        unfold histogram_buckets
        intro hmap
        exact foldl_insert_ne_nil _ _
          (Or.inl (stats_sort_values_ne_nil h1))
          (by simpa using hmap)
      · intro h0
        unfold stats_build_histogram
        simp only [if_pos h0]

/-- C10: rendering is safe only when at least one finite value was
inserted — equivalently, the cumulative accumulator is nonempty.  For
every reachable collector state: if the cumulative count is at least 1,
the rebuild leaves a non-null cumulative histogram with at least one
occupied bucket (so the data-file writers' accesses to the first and
last entries of `histogram_buckets` are in range); with zero finite
values inserted the cumulative histogram after the rebuild is NULL, and
the writers dereference it. -/
theorem C10_render_requires_data (m : Mordor) (hr : MordorReachable m) :
    (1 ≤ m.cumulative_stats.count →
      ∃ h, (mordor_build_histograms m).cumulative_hist = some h ∧
        histogram_buckets h ≠ []) ∧
    (m.cumulative_stats.count = 0 →
      (mordor_build_histograms m).cumulative_hist = none) := by
  have hinv := mordor_cum_of_reachable (MordorReachable.build hr)
  have hd := mordor_build_dirty_false m
  have hcs := mordor_build_cumulative_stats m
  obtain ⟨h1, h0⟩ := hinv hd
  rw [hcs] at h1 h0
  exact ⟨h1, h0⟩

theorem C10_render_requires_data_witness :
    ∃ h, (mordor_build_histograms
        (mordor_insert mordor_create "b" (.fin 2))).cumulative_hist =
        some h ∧ histogram_buckets h ≠ [] :=
  (C10_render_requires_data _ (.insert "b" (.fin 2) .create)).1 (by decide)

/-! ## The clean-style data file writer (`mordor_datafile_clean`)

The writer is modelled as a function from the collector's bucket size
(here a finite `w`), its cumulative histogram and the mountains'
histograms (all non-null — the C dereferences them, see C10) to the list
of numeric data rows; the textual header row is not modelled.  A row is
`(position, cumulative cell, per-mountain cells)`, a mountain cell being
`none` for the `NAN` placeholder sentinel and `some k` for a printed
count `k` (the padding rows print the literal 0). -/

/-- The per-mountain 3-state machine of the clean writer. -/
inductive MState where
  | notStarted
  | started
  | finished
deriving DecidableEq, Repr

/-- One mountain's column entry at a row, with the state transition:
the C `switch` in the row loop.  `cnt` is
`histogram_count(mountain hist, pos)`, `a`/`z` the mountain's first/last
occupied bucket starts. -/
def cleanCell (w pos : ℚ) (cnt : ℕ) (a z : ℚ) :
    MState → Option ℕ × MState
  | .finished =>
    if pos - 3/2 * w < z then (some 0, .finished)
    else (none, .finished)
  | .notStarted =>
    if pos + 3/2 * w < a then (none, .notStarted)
    else (some cnt, if z < pos then .finished else .started)
  | .started => (some cnt, if z < pos then .finished else .started)

/-- The `start`/`finish` arrays: (0,0) for an empty histogram, else the
first and last occupied bucket starts. -/
def mountainStartFinish (h : Histogram) : ℚ × ℚ :=
  if histogram_size h = 0 then (0, 0)
  else ((histogram_buckets h).headD 0, (histogram_buckets h).getLastD 0)

/-- All mountains' cells for one row, threading the state array. -/
def cleanRowCells (w pos : ℚ) :
    List (Histogram × ℚ × ℚ) → List MState →
      List (Option ℕ) × List MState
  | [], _ => ([], [])
  | _ :: _, [] => ([], [])
  | mp :: ms, st :: sts =>
    let c := cleanCell w pos (histogram_count mp.1 pos) mp.2.1 mp.2.2 st
    let rest := cleanRowCells w pos ms sts
    (c.1 :: rest.1, c.2 :: rest.2)

/-- The leading padding row's cells (one bucket width before the first
cumulative bucket `c0`): a zero, with the state moved to STARTED, for a
mountain starting within half a bucket of `c0`; the placeholder
otherwise. -/
def cleanPadCells (w c0 : ℚ) :
    List (Histogram × ℚ × ℚ) → List (Option ℕ) × List MState
  | [] => ([], [])
  | mp :: ms =>
    let rest := cleanPadCells w c0 ms
    if mp.2.1 ≤ c0 + 1/2 * w then (some 0 :: rest.1, .started :: rest.2)
    else (none :: rest.1, .notStarted :: rest.2)

/-- The trailing padding row's cells: zero for a mountain still STARTED,
the placeholder otherwise. -/
def cleanTrailCells : List MState → List (Option ℕ)
  | [] => []
  | .started :: sts => some 0 :: cleanTrailCells sts
  | _ :: sts => none :: cleanTrailCells sts

/-- The `write_row` body with the backward `goto`: emit the row at `pos`,
and while the next occupied cumulative bucket is more than
`1.5 * bucket_size` ahead, step `pos` by one bucket width and emit a
synthetic row.  The C loop terminates because `pos` approaches `next`;
the fuel passed by `cleanLoop` is provably sufficient on the bucket grid
(`cleanChain_eq_ref`). -/
def cleanChain (w : ℚ) (cum : Histogram) (ms : List (Histogram × ℚ × ℚ))
    (next : ℚ) :
    ℕ → ℚ → List MState →
      List (ℚ × ℕ × List (Option ℕ)) × List MState
  | 0, _, sts => ([], sts)
  | fuel + 1, pos, sts =>
    let rc := cleanRowCells w pos ms sts
    let row := (pos, histogram_count cum pos, rc.1)
    if pos + 3/2 * w < next then
      let rest := cleanChain w cum ms next fuel (pos + w) rc.2
      (row :: rest.1, rest.2)
    else ([row], rc.2)

/-- The row loop over the occupied cumulative buckets. -/
def cleanLoop (w : ℚ) (cum : Histogram) (ms : List (Histogram × ℚ × ℚ)) :
    List ℚ → List MState →
      List (ℚ × ℕ × List (Option ℕ)) × List MState
  | [], sts => ([], sts)
  | [b], sts =>
    let rc := cleanRowCells w b ms sts
    ([(b, histogram_count cum b, rc.1)], rc.2)
  | b :: b' :: rest, sts =>
    let c := cleanChain w cum ms b' ((⌈(b' - b) / w⌉).toNat + 1) b sts
    let r := cleanLoop w cum ms (b' :: rest) c.2
    (c.1 ++ r.1, r.2)

/-- The data rows of `mordor_datafile_clean`: the leading padding row one
bucket width before the first occupied cumulative bucket, the rows at
every occupied cumulative bucket (with synthetic gap-filling rows), and
the trailing padding row one width past the last.  An empty cumulative
bucket array is the C10 null-dereference situation; the model returns no
rows there. -/
def mordor_datafile_clean_rows (w : ℚ) (cum : Histogram)
    (hists : List Histogram) : List (ℚ × ℕ × List (Option ℕ)) :=
  match histogram_buckets cum with
  | [] => []
  | c0 :: rest =>
    let ms := hists.map (fun h => (h, mountainStartFinish h))
    let pad := cleanPadCells w c0 ms
    let lp := cleanLoop w cum ms (c0 :: rest) pad.2
    let lastB := (c0 :: rest).getLastD 0
    (c0 - w, 0, pad.1) :: lp.1 ++ [(lastB + w, 0, cleanTrailCells lp.2)]

/-- Straight-line reference emission of the same rows over an explicit
list of positions (the spec's "explicit lazy sequence of bucket
positions"); `cleanLoop` produces exactly this over the grid sweep. -/
def cleanRowsRef (w : ℚ) (cum : Histogram)
    (ms : List (Histogram × ℚ × ℚ)) :
    List ℚ → List MState →
      List (ℚ × ℕ × List (Option ℕ)) × List MState
  | [], sts => ([], sts)
  | p :: ps, sts =>
    let rc := cleanRowCells w p ms sts
    let rest := cleanRowsRef w cum ms ps rc.2
    ((p, histogram_count cum p, rc.1) :: rest.1, rest.2)

/-- The arithmetic sweep `p, p+w, ..., p+(n-1)w`. -/
def gridPts (w : ℚ) : ℚ → ℕ → List ℚ
  | _, 0 => []
  | p, n + 1 => p :: gridPts w (p + w) n

/-- A position on the anchor-0 bucket grid of width `w`. -/
def onGrid (w x : ℚ) : Prop := ∃ k : ℤ, x = k * w

/-! ### Supporting lemmas for the clean writer -/

theorem onGrid_lt_step {w a b : ℚ} (hw : 0 < w) (ha : onGrid w a)
    (hb : onGrid w b) (h : a < b) : a + w ≤ b := by
  obtain ⟨i, rfl⟩ := ha
  obtain ⟨j, rfl⟩ := hb
  have hij : i < j := by
    have := (mul_lt_mul_right hw).mp h
    exact_mod_cast this
  have h1 : ((i + 1 : ℤ) : ℚ) * w ≤ (j : ℤ) * w := by
    apply mul_le_mul_of_nonneg_right _ (le_of_lt hw)
    exact_mod_cast hij
  calc (i : ℚ) * w + w = ((i + 1 : ℤ) : ℚ) * w := by push_cast; ring
  _ ≤ (j : ℚ) * w := by exact_mod_cast h1

theorem onGrid_add_w {w x : ℚ} (hx : onGrid w x) : onGrid w (x + w) := by
  obtain ⟨k, rfl⟩ := hx
  exact ⟨k + 1, by push_cast; ring⟩

theorem gridPts_append (w : ℚ) (k n : ℕ) :
    ∀ p, gridPts w p k ++ gridPts w (p + k * w) n = gridPts w p (k + n) := by
  induction k with
  | zero => intro p; simp [gridPts]
  | succ k' ih =>
    intro p
    have : p + (k' + 1 : ℕ) * w = (p + w) + (k' : ℕ) * w := by
      push_cast; ring
    rw [show (k' + 1) + n = (k' + n) + 1 by omega]
    simp only [gridPts, List.cons_append, this, ih (p + w)]

theorem cleanRowsRef_append (w : ℚ) (cum : Histogram)
    (ms : List (Histogram × ℚ × ℚ)) (l1 l2 : List ℚ) :
    ∀ sts, cleanRowsRef w cum ms (l1 ++ l2) sts =
      ((cleanRowsRef w cum ms l1 sts).1 ++
        (cleanRowsRef w cum ms l2 (cleanRowsRef w cum ms l1 sts).2).1,
       (cleanRowsRef w cum ms l2 (cleanRowsRef w cum ms l1 sts).2).2) := by
  induction l1 with
  | nil => intro sts; simp [cleanRowsRef]
  | cons p ps ih =>
    intro sts
    simp only [List.cons_append, cleanRowsRef, List.append_eq]
    rw [ih]

theorem sorted_headD_le {l : List ℚ} (hs : l.Sorted (· ≤ ·)) {x : ℚ}
    (hx : x ∈ l) : l.headD 0 ≤ x := by
  cases l with
  | nil => simp at hx
  | cons a t =>
    rcases List.mem_cons.mp hx with rfl | h
    · simp
    · simpa using List.rel_of_sorted_cons hs x h

theorem le_sorted_getLastD :
    ∀ {l : List ℚ}, l.Sorted (· ≤ ·) → ∀ {x : ℚ}, x ∈ l →
      x ≤ l.getLastD 0 := by
  intro l
  induction l with
  | nil =>
    intro _ x hx
    simp at hx
  | cons a t ih =>
    intro hs x hx
    cases t with
    | nil =>
      have hxa : x = a := by simpa using hx
      simp [hxa]
    | cons b t2 =>
      have htail : x ≤ (b :: t2).getLastD 0 := by
        rcases List.mem_cons.mp hx with rfl | h
        · exact le_trans (List.rel_of_sorted_cons hs b (by simp))
            (ih hs.of_cons (by simp))
        · exact ih hs.of_cons h
      calc x ≤ (b :: t2).getLastD 0 := htail
      _ = (a :: b :: t2).getLastD 0 := by
        simp [List.getLastD_cons]

theorem histogram_count_mem {h : Histogram} {b : ℚ}
    (hc : histogram_count h b ≠ 0) : b ∈ histogram_buckets h := by
  unfold histogram_count at hc
  cases hf : h.buckets.find? (fun p => p.1 = b) with
  | none =>
    rw [hf] at hc
    simp at hc
  | some p =>
    have hmem := List.mem_of_find?_eq_some hf
    have hkey : p.1 = b := by simpa using List.find?_some hf
    unfold histogram_buckets
    exact hkey ▸ List.mem_map_of_mem Prod.fst hmem

/-- Default mountain entry, used only for out-of-range `getD`. -/
def mpDefault : Histogram × ℚ × ℚ := (histogram_create (.fin 0), 0, 0)

theorem cleanRowCells_length {w pos : ℚ} :
    ∀ (ms : List (Histogram × ℚ × ℚ)) (sts : List MState),
      (cleanRowCells w pos ms sts).1.length = min ms.length sts.length ∧
      (cleanRowCells w pos ms sts).2.length = min ms.length sts.length := by
  intro ms
  induction ms with
  | nil => intro sts; simp [cleanRowCells]
  | cons mp ms' ih =>
    intro sts
    cases sts with
    | nil => simp [cleanRowCells]
    | cons st sts' =>
      obtain ⟨h1, h2⟩ := ih sts'
      simp only [cleanRowCells, List.length_cons, h1, h2]
      omega

theorem cleanRowCells_getD {w pos : ℚ} :
    ∀ (ms : List (Histogram × ℚ × ℚ)) (sts : List MState),
      sts.length = ms.length → ∀ j, j < ms.length →
      (cleanRowCells w pos ms sts).1.getD j none =
        (cleanCell w pos (histogram_count (ms.getD j mpDefault).1 pos)
          (ms.getD j mpDefault).2.1 (ms.getD j mpDefault).2.2
          (sts.getD j .notStarted)).1 ∧
      (cleanRowCells w pos ms sts).2.getD j .notStarted =
        (cleanCell w pos (histogram_count (ms.getD j mpDefault).1 pos)
          (ms.getD j mpDefault).2.1 (ms.getD j mpDefault).2.2
          (sts.getD j .notStarted)).2 := by
  intro ms
  induction ms with
  | nil =>
    intro sts hlen j hj
    simp at hj
  | cons mp ms' ih =>
    intro sts hlen j hj
    cases sts with
    | nil => simp at hlen
    | cons st sts' =>
      cases j with
      | zero => simp [cleanRowCells]
      | succ j' =>
        have hlen' : sts'.length = ms'.length := by
          simpa using hlen
        have hj' : j' < ms'.length := by simpa using hj
        simpa [cleanRowCells] using ih sts' hlen' j' hj'

theorem cleanPadCells_length {w c0 : ℚ} :
    ∀ (ms : List (Histogram × ℚ × ℚ)),
      (cleanPadCells w c0 ms).1.length = ms.length ∧
      (cleanPadCells w c0 ms).2.length = ms.length := by
  intro ms
  induction ms with
  | nil => simp [cleanPadCells]
  | cons mp ms' ih =>
    unfold cleanPadCells
    split_ifs <;> simp [ih.1, ih.2]

theorem cleanPadCells_getD {w c0 : ℚ} :
    ∀ (ms : List (Histogram × ℚ × ℚ)) (j : ℕ), j < ms.length →
      (cleanPadCells w c0 ms).1.getD j none =
        (if (ms.getD j mpDefault).2.1 ≤ c0 + 1/2 * w then some 0
         else none) ∧
      (cleanPadCells w c0 ms).2.getD j .notStarted =
        (if (ms.getD j mpDefault).2.1 ≤ c0 + 1/2 * w then MState.started
         else MState.notStarted) := by
  intro ms
  induction ms with
  | nil =>
    intro j hj
    simp at hj
  | cons mp ms' ih =>
    intro j hj
    cases j with
    | zero =>
      by_cases h : mp.2.1 ≤ c0 + 1/2 * w
      · simp only [cleanPadCells, if_pos h, List.getD_cons_zero]
        exact ⟨trivial, trivial⟩
      · simp only [cleanPadCells, if_neg h, List.getD_cons_zero]
        exact ⟨trivial, trivial⟩
    | succ j' =>
      have hj' : j' < ms'.length := by simpa using hj
      have hrec := ih j' hj'
      by_cases h : mp.2.1 ≤ c0 + 1/2 * w
      · simp only [cleanPadCells, if_pos h, List.getD_cons_succ]
        exact hrec
      · simp only [cleanPadCells, if_neg h, List.getD_cons_succ]
        exact hrec

theorem cleanTrailCells_length :
    ∀ (sts : List MState), (cleanTrailCells sts).length = sts.length := by
  intro sts
  induction sts with
  | nil => simp [cleanTrailCells]
  | cons st sts' ih =>
    cases st <;> simp [cleanTrailCells, ih]

theorem cleanTrailCells_getD :
    ∀ (sts : List MState) (j : ℕ), j < sts.length →
      (cleanTrailCells sts).getD j none =
        (if sts.getD j .notStarted = MState.started then some 0
         else none) := by
  intro sts
  induction sts with
  | nil =>
    intro j hj
    simp at hj
  | cons st sts' ih =>
    intro j hj
    cases j with
    | zero => cases st <;> simp [cleanTrailCells]
    | succ j' =>
      have hj' : j' < sts'.length := by simpa using hj
      cases st <;> simpa [cleanTrailCells] using ih j' hj'

/-- With sufficient fuel and the next bucket exactly `k` grid steps
ahead, the goto chain emits exactly the rows at the `k` grid points
before it. -/
theorem cleanChain_eq_ref {w : ℚ} (hw : 0 < w) (cum : Histogram)
    (ms : List (Histogram × ℚ × ℚ)) :
    ∀ (k : ℕ), 1 ≤ k → ∀ (pos : ℚ) (sts : List MState),
      cleanChain w cum ms (pos + (k : ℚ) * w) (k + 1) pos sts =
        cleanRowsRef w cum ms (gridPts w pos k) sts := by
  intro k
  induction k with
  | zero =>
    intro h
    omega
  | succ k' ih =>
    intro _ pos sts
    by_cases hk : k' = 0
    · subst hk
      have hcond : ¬(pos + 3/2 * w < pos + ((1 : ℕ) : ℚ) * w) := by
        push_cast
        intro hc
        nlinarith
      unfold cleanChain
      rw [if_neg hcond]
      simp [cleanRowsRef, gridPts]
    · have hk1 : 1 ≤ k' := by omega
      have hcond : pos + 3/2 * w < pos + ((k' + 1 : ℕ) : ℚ) * w := by
        have hge : (2 : ℚ) ≤ ((k' + 1 : ℕ) : ℚ) := by
          push_cast
          have : (1 : ℚ) ≤ (k' : ℚ) := by exact_mod_cast hk1
          linarith
        nlinarith
      have harg : pos + ((k' + 1 : ℕ) : ℚ) * w = (pos + w) + (k' : ℚ) * w := by
        push_cast
        ring
      unfold cleanChain
      rw [if_pos hcond, harg, ih hk1 (pos + w)]
      simp [cleanRowsRef, gridPts]

/-- On the sorted grid-aligned cumulative bucket list, the row loop with
its synthetic gap-filling rows is exactly the straight-line emission
over the full arithmetic sweep from the first to the last bucket. -/
theorem cleanLoop_eq_ref {w : ℚ} (hw : 0 < w) (cum : Histogram)
    (ms : List (Histogram × ℚ × ℚ)) :
    ∀ (bs : List ℚ), bs.Sorted (· < ·) → (∀ b ∈ bs, onGrid w b) →
      bs ≠ [] →
      ∀ sts, ∃ n : ℕ, 1 ≤ n ∧
        bs.headD 0 + ((n : ℚ) - 1) * w = bs.getLastD 0 ∧
        cleanLoop w cum ms bs sts =
          cleanRowsRef w cum ms (gridPts w (bs.headD 0) n) sts := by
  intro bs
  induction bs with
  | nil =>
    intro _ _ h
    exact absurd rfl h
  | cons b rest ih =>
    intro hsort hgrid _ sts
    cases rest with
    | nil =>
      refine ⟨1, le_refl _, by norm_num, ?_⟩
      simp [cleanLoop, cleanRowsRef, gridPts]
    | cons b' rest' =>
      obtain ⟨i, hi⟩ := hgrid b (by simp)
      obtain ⟨j, hj⟩ := hgrid b' (by simp [List.mem_cons])
      have hbb' : b < b' := List.rel_of_sorted_cons hsort b' (by simp)
      have hij : i < j := by
        rw [hi, hj] at hbb'
        exact_mod_cast (mul_lt_mul_right hw).mp hbb'
      have hk1 : 1 ≤ (j - i).toNat := by omega
      have hdiff : b' = b + (((j - i).toNat : ℕ) : ℚ) * w := by
        rw [hi, hj]
        have : (((j - i).toNat : ℕ) : ℚ) = (j : ℚ) - (i : ℚ) := by
          have hji : 0 ≤ j - i := by omega
          have h2 : (((j - i).toNat : ℕ) : ℤ) = j - i := Int.toNat_of_nonneg hji
          calc (((j - i).toNat : ℕ) : ℚ) = ((((j - i).toNat : ℕ) : ℤ) : ℚ) := by
                push_cast
                ring
          _ = ((j - i : ℤ) : ℚ) := by rw [h2]
          _ = (j : ℚ) - (i : ℚ) := by push_cast; ring
        rw [this]
        ring
      have hceil : (⌈(b' - b) / w⌉).toNat = (j - i).toNat := by
        rw [hdiff]
        have harg : b + (((j - i).toNat : ℕ) : ℚ) * w - b =
            (((j - i).toNat : ℕ) : ℚ) * w := by ring
        rw [harg, mul_div_cancel_right₀ _ (ne_of_gt hw)]
        rw [Int.ceil_natCast]
        exact Int.toNat_natCast _
      obtain ⟨n', hn1, hlast, heq⟩ := ih hsort.of_cons
        (fun x hx => hgrid x (List.mem_cons_of_mem b hx)) (by simp)
        (cleanChain w cum ms b' ((j - i).toNat + 1) b sts).2
      have hchain : cleanChain w cum ms b' ((j - i).toNat + 1) b sts =
          cleanRowsRef w cum ms (gridPts w b (j - i).toNat) sts := by
        conv_lhs => rw [hdiff]
        exact cleanChain_eq_ref hw cum ms (j - i).toNat hk1 b sts
      have hh : (b' :: rest').headD 0 = b' := rfl
      have hhb : (b :: b' :: rest').headD 0 = b := rfl
      refine ⟨(j - i).toNat + n', by omega, ?_, ?_⟩
      · rw [hh] at hlast
        have hl : (b :: b' :: rest').getLastD 0 =
            (b' :: rest').getLastD 0 := by
          simp [List.getLastD_cons]
        rw [hhb, hl, ← hlast, hdiff]
        push_cast
        ring
      · have hpts : gridPts w b ((j - i).toNat + n') =
            gridPts w b (j - i).toNat ++ gridPts w b' n' := by
          rw [← gridPts_append w (j - i).toNat n' b, ← hdiff]
        show cleanLoop w cum ms (b :: b' :: rest') sts = _
        unfold cleanLoop
        dsimp only
        rw [hceil, heq, hchain, hh, hhb, hpts, cleanRowsRef_append]

/-- Facts about one mountain entry the renderer relies on (all hold for
the mountains of an aligned collector): its first/last occupied buckets
`a = mp.2.1` and `z = mp.2.2` are on the grid, ordered, inside the
cumulative range `[c0, lastB]`, and bound every occupied bucket. -/
def MData (w c0 lastB : ℚ) (mp : Histogram × ℚ × ℚ) : Prop :=
  onGrid w mp.2.1 ∧ onGrid w mp.2.2 ∧ mp.2.1 ≤ mp.2.2 ∧
  c0 ≤ mp.2.1 ∧ mp.2.2 ≤ lastB ∧
  ∀ b, histogram_count mp.1 b ≠ 0 → mp.2.1 ≤ b ∧ b ≤ mp.2.2

/-- The state-machine invariant at entry of the row at position `p`, for
a mountain with first/last occupied buckets `a`/`z`. -/
def MInv (w a z p : ℚ) : MState → Prop
  | .notStarted => p + w/2 < a
  | .started => a ≤ p + w/2 ∧ p - w ≤ z
  | .finished => z ≤ p - 2*w

/-- One step of the per-mountain machine: the emitted cell is the
placeholder exactly outside `[a - 1.5w, z + 1.5w]` and the count
otherwise, and the invariant advances to the next grid position. -/
theorem cleanCell_step {w : ℚ} (hw : 0 < w) {hist : Histogram}
    {a z p : ℚ} (_hga : onGrid w a) (hgz : onGrid w z) (haz : a ≤ z)
    (_hcnt : ∀ b, histogram_count hist b ≠ 0 → a ≤ b ∧ b ≤ z)
    (hgp : onGrid w p) {st : MState} (hinv : MInv w a z p st) :
    (cleanCell w p (histogram_count hist p) a z st).1 =
      (if p < a - 3/2 * w ∨ z + 3/2 * w < p then none
       else some (histogram_count hist p)) ∧
    MInv w a z (p + w)
      (cleanCell w p (histogram_count hist p) a z st).2 := by
  cases st with
  | notStarted =>
    simp only [MInv] at hinv
    by_cases hc : p + 3/2 * w < a
    · constructor
      · simp only [cleanCell, if_pos hc]
        rw [if_pos (Or.inl (by linarith))]
      · simp only [cleanCell, if_pos hc, MInv]
        linarith
    · have hpa : a ≤ p + 3/2 * w := le_of_not_lt hc
      have hpz : p < z := by linarith
      constructor
      · simp only [cleanCell, if_neg hc]
        rw [if_neg (by push_neg; exact ⟨by linarith, by linarith⟩)]
      · simp only [cleanCell, if_neg hc]
        rw [if_neg (not_lt.mpr (le_of_lt hpz))]
        simp only [MInv]
        exact ⟨by linarith, by linarith⟩
  | started =>
    simp only [MInv] at hinv
    obtain ⟨h1, h2⟩ := hinv
    constructor
    · simp only [cleanCell]
      rw [if_neg (by push_neg; exact ⟨by linarith, by linarith⟩)]
    · simp only [cleanCell]
      by_cases hz : z < p
      · rw [if_pos hz]
        simp only [MInv]
        have hstep := onGrid_lt_step hw hgz hgp hz
        linarith
      · rw [if_neg hz]
        simp only [MInv]
        push_neg at hz
        exact ⟨by linarith, by linarith⟩
  | finished =>
    simp only [MInv] at hinv
    constructor
    · simp only [cleanCell]
      rw [if_neg (by linarith), if_pos (Or.inr (by linarith))]
    · simp only [cleanCell]
      rw [if_neg (by linarith)]
      simp only [MInv]
      linarith

/-- The padding row's cell for one mountain is the placeholder exactly
outside the claim's window at position `c0 - w`, and the produced state
satisfies the invariant at the first loop position `c0`. -/
theorem cleanPad_step {w c0 lastB : ℚ} (hw : 0 < w)
    {mp : Histogram × ℚ × ℚ} (hd : MData w c0 lastB mp) :
    ((if mp.2.1 ≤ c0 + 1/2 * w then (some 0 : Option ℕ) else none) =
      (if c0 - w < mp.2.1 - 3/2 * w ∨ mp.2.2 + 3/2 * w < c0 - w then none
       else some (histogram_count mp.1 (c0 - w)))) ∧
    MInv w mp.2.1 mp.2.2 c0
      (if mp.2.1 ≤ c0 + 1/2 * w then MState.started
       else MState.notStarted) := by
  obtain ⟨hga, hgz, haz, hc0a, hzl, hcnt⟩ := hd
  constructor
  · by_cases h : mp.2.1 ≤ c0 + 1/2 * w
    · rw [if_pos h, if_neg (by push_neg; exact ⟨by linarith, by linarith⟩)]
      have hcz : histogram_count mp.1 (c0 - w) = 0 := by
        by_contra hne
        have := (hcnt _ hne).1
        linarith
      rw [hcz]
    · rw [if_neg h, if_pos (Or.inl (by push_neg at h; linarith))]
  · by_cases h : mp.2.1 ≤ c0 + 1/2 * w
    · rw [if_pos h]
      simp only [MInv]
      exact ⟨by linarith, by linarith⟩
    · rw [if_neg h]
      simp only [MInv]
      push_neg at h
      linarith

/-- The trailing row's cell for one mountain is the placeholder exactly
outside the claim's window at position `lastB + w`, given the machine
invariant left behind by the last loop row. -/
theorem cleanTrail_step {w c0 lastB : ℚ} (hw : 0 < w)
    {mp : Histogram × ℚ × ℚ} (hd : MData w c0 lastB mp) {st : MState}
    (hinv : MInv w mp.2.1 mp.2.2 (lastB + w) st) :
    (if st = MState.started then (some 0 : Option ℕ) else none) =
      (if lastB + w < mp.2.1 - 3/2 * w ∨ mp.2.2 + 3/2 * w < lastB + w
       then none else some (histogram_count mp.1 (lastB + w))) := by
  obtain ⟨hga, hgz, haz, hc0a, hzl, hcnt⟩ := hd
  cases st with
  | notStarted =>
    exfalso
    simp only [MInv] at hinv
    linarith
  | started =>
    simp only [MInv] at hinv
    obtain ⟨h1, h2⟩ := hinv
    rw [if_pos rfl, if_neg (by push_neg; exact ⟨by linarith, by linarith⟩)]
    have hcz : histogram_count mp.1 (lastB + w) = 0 := by
      by_contra hne
      have := (hcnt _ hne).2
      linarith
    rw [hcz]
  | finished =>
    simp only [MInv] at hinv
    rw [if_neg (by decide), if_pos (Or.inr (by linarith))]

/-- The straight-line emission over the grid sweep satisfies the claim's
placeholder characterization row by row, and leaves the machine
invariant at the position one step past the sweep. -/
theorem cleanRowsRef_spec {w : ℚ} (hw : 0 < w) (cum : Histogram)
    {c0 lastB : ℚ} (ms : List (Histogram × ℚ × ℚ))
    (hms : ∀ j, j < ms.length → MData w c0 lastB (ms.getD j mpDefault)) :
    ∀ (n : ℕ) (p : ℚ) (sts : List MState),
      sts.length = ms.length → onGrid w p →
      (∀ j, j < ms.length →
        MInv w (ms.getD j mpDefault).2.1 (ms.getD j mpDefault).2.2 p
          (sts.getD j .notStarted)) →
      (cleanRowsRef w cum ms (gridPts w p n) sts).2.length = ms.length ∧
      (∀ j, j < ms.length →
        MInv w (ms.getD j mpDefault).2.1 (ms.getD j mpDefault).2.2
          (p + (n : ℚ) * w)
          ((cleanRowsRef w cum ms (gridPts w p n) sts).2.getD j
            .notStarted)) ∧
      (∀ row ∈ (cleanRowsRef w cum ms (gridPts w p n) sts).1,
        ∀ j, j < ms.length →
          row.2.2.getD j none =
            (if row.1 < (ms.getD j mpDefault).2.1 - 3/2 * w ∨
                (ms.getD j mpDefault).2.2 + 3/2 * w < row.1 then none
             else some (histogram_count (ms.getD j mpDefault).1 row.1))) := by
  intro n
  induction n with
  | zero =>
    intro p sts hlen hgp hinv
    refine ⟨by simpa [gridPts, cleanRowsRef] using hlen, ?_, ?_⟩
    · intro j hj
      have harith : p + ((0 : ℕ) : ℚ) * w = p := by push_cast; ring
      rw [harith]
      simpa [gridPts, cleanRowsRef] using hinv j hj
    · intro row hrow
      simp [gridPts, cleanRowsRef] at hrow
  | succ n' ih =>
    intro p sts hlen hgp hinv
    have hrc := @cleanRowCells_length w p ms sts
    have hrc2len : (cleanRowCells w p ms sts).2.length = ms.length := by
      omega
    have hstep : ∀ j, j < ms.length →
        (cleanRowCells w p ms sts).1.getD j none =
          (if p < (ms.getD j mpDefault).2.1 - 3/2 * w ∨
              (ms.getD j mpDefault).2.2 + 3/2 * w < p then none
           else some (histogram_count (ms.getD j mpDefault).1 p)) ∧
        MInv w (ms.getD j mpDefault).2.1 (ms.getD j mpDefault).2.2 (p + w)
          ((cleanRowCells w p ms sts).2.getD j .notStarted) := by
      intro j hj
      obtain ⟨hc1, hc2⟩ := cleanRowCells_getD ms sts hlen j hj
      obtain ⟨hga, hgz, haz, hc0a, hzl, hcnt⟩ := hms j hj
      have hcc := cleanCell_step hw hga hgz haz hcnt hgp (hinv j hj)
      exact ⟨by rw [hc1]; exact hcc.1, by rw [hc2]; exact hcc.2⟩
    obtain ⟨hlen2, hinv2, hrows2⟩ := ih (p + w) (cleanRowCells w p ms sts).2
      hrc2len (onGrid_add_w hgp) (fun j hj => (hstep j hj).2)
    have hexp : cleanRowsRef w cum ms (gridPts w p (n' + 1)) sts =
        ((p, histogram_count cum p, (cleanRowCells w p ms sts).1) ::
          (cleanRowsRef w cum ms (gridPts w (p + w) n')
            (cleanRowCells w p ms sts).2).1,
         (cleanRowsRef w cum ms (gridPts w (p + w) n')
            (cleanRowCells w p ms sts).2).2) := by
      simp [gridPts, cleanRowsRef]
    rw [hexp]
    have harith : p + ((n' + 1 : ℕ) : ℚ) * w = (p + w) + (n' : ℚ) * w := by
      push_cast
      ring
    refine ⟨hlen2, ?_, ?_⟩
    · intro j hj
      rw [harith]
      exact hinv2 j hj
    · intro row hrow j hj
      rcases List.mem_cons.mp hrow with rfl | hmem
      · exact (hstep j hj).1
      · exact hrows2 row hmem j hj

theorem headD_mem {l : List ℚ} (h : l ≠ []) : l.headD 0 ∈ l := by
  cases l with
  | nil => exact absurd rfl h
  | cons a t => simp

theorem getLastD_mem : ∀ {l : List ℚ} (d : ℚ), l ≠ [] → l.getLastD d ∈ l := by
  intro l
  induction l with
  | nil =>
    intro d h
    exact absurd rfl h
  | cons a t ih =>
    intro d _
    cases ht : t with
    | nil => simp
    | cons b t2 =>
      rw [List.getLastD_cons]
      have hmem := ih a (by rw [ht]; simp)
      rw [ht] at hmem
      exact List.mem_cons_of_mem a (ht ▸ hmem)

/-! ## Claim C6 -/

/-- C6: in a clean-style render — a positive shared bucket width, a
non-empty grid-aligned strictly-ascending cumulative bucket list, and
every mountain's histogram non-null with its occupied buckets among the
cumulative ones, exactly the state `mordor_build_histograms` leaves
behind — every generated row position `pos` (padding and synthetic rows
included) carries, in each key's column, the placeholder sentinel
exactly when `pos < start - 1.5*bucket_size` or
`pos > finish + 1.5*bucket_size` (with `[start, finish]` that key's
first/last occupied buckets), and a numeric value equal to the key's
count at that bucket — 0 when unoccupied — at every other row. -/
theorem C6_clean_render_placeholder_iff
    (w : ℚ) (hw : 0 < w) (cum : Histogram) (hists : List Histogram)
    (hcnil : histogram_buckets cum ≠ [])
    (hcsort : (histogram_buckets cum).Sorted (· < ·))
    (hcgrid : ∀ b ∈ histogram_buckets cum, onGrid w b)
    (hmt : ∀ hist ∈ hists, histogram_buckets hist ≠ [] ∧
      (histogram_buckets hist).Sorted (· < ·) ∧
      ∀ b ∈ histogram_buckets hist, b ∈ histogram_buckets cum) :
    ∀ row ∈ mordor_datafile_clean_rows w cum hists,
      ∀ j, j < hists.length →
        row.2.2.getD j none =
          (if row.1 < (mountainStartFinish
                (hists.getD j (histogram_create (.fin 0)))).1 - 3/2 * w ∨
              (mountainStartFinish
                (hists.getD j (histogram_create (.fin 0)))).2 + 3/2 * w
                < row.1
           then none
           else some (histogram_count
              (hists.getD j (histogram_create (.fin 0))) row.1)) := by
  cases hbuck : histogram_buckets cum with
  | nil => exact absurd hbuck hcnil
  | cons c0 rest =>
  rw [hbuck] at hcsort hcgrid
  set dh : Histogram := histogram_create (.fin 0) with hdh
  set ms : List (Histogram × ℚ × ℚ) :=
    hists.map (fun h => (h, mountainStartFinish h)) with hms
  have hmslen : ms.length = hists.length := by
    rw [hms, List.length_map]
  have hmsD : ∀ j, j < hists.length →
      ms.getD j mpDefault =
        (hists.getD j dh, mountainStartFinish (hists.getD j dh)) := by
    intro j hj
    have h1 : ms.getD j mpDefault =
        (List.map (fun h => (h, mountainStartFinish h)) hists).getD j
          mpDefault := by
      rw [hms]
    rw [h1, List.getD_eq_getElem _ _ (by simpa using hj), List.getElem_map,
      List.getD_eq_getElem _ _ hj]
  set lastB : ℚ := (c0 :: rest).getLastD 0 with hlastB
  have hg0 : onGrid w c0 := hcgrid c0 (by simp)
  have hcle : (c0 :: rest).Sorted (· ≤ ·) := hcsort.le_of_lt
  have hc0min : ∀ x ∈ c0 :: rest, c0 ≤ x := by
    intro x hx
    simpa using sorted_headD_le hcle hx
  have hlastmax : ∀ x ∈ c0 :: rest, x ≤ lastB := by
    intro x hx
    exact le_sorted_getLastD hcle hx
  have hdata : ∀ j, j < ms.length → MData w c0 lastB (ms.getD j mpDefault) := by
    intro j hj
    rw [hmslen] at hj
    rw [hmsD j hj]
    have hmem : hists.getD j dh ∈ hists := getD_mem hj
    obtain ⟨hnil, hsort, hsub⟩ := hmt _ hmem
    have hsize : ¬(histogram_size (hists.getD j dh) = 0) := by
      intro h0
      apply hnil
      unfold histogram_size at h0
      unfold histogram_buckets
      rw [List.length_eq_zero.mp h0]
      rfl
    have hsf : mountainStartFinish (hists.getD j dh) =
        ((histogram_buckets (hists.getD j dh)).headD 0,
         (histogram_buckets (hists.getD j dh)).getLastD 0) := by
      unfold mountainStartFinish
      rw [if_neg hsize]
    have hamem : (histogram_buckets (hists.getD j dh)).headD 0 ∈
        histogram_buckets (hists.getD j dh) := headD_mem hnil
    have hzmem : (histogram_buckets (hists.getD j dh)).getLastD 0 ∈
        histogram_buckets (hists.getD j dh) := getLastD_mem 0 hnil
    have hacum := hsub _ hamem
    have hzcum := hsub _ hzmem
    rw [hbuck] at hacum hzcum
    unfold MData
    rw [hsf]
    refine ⟨hcgrid _ hacum, hcgrid _ hzcum,
      sorted_headD_le hsort.le_of_lt hzmem, hc0min _ hacum,
      hlastmax _ hzcum, ?_⟩
    intro b hb
    have hbmem := histogram_count_mem hb
    exact ⟨sorted_headD_le hsort.le_of_lt hbmem,
      le_sorted_getLastD hsort.le_of_lt hbmem⟩
  set sts0 : List MState := (cleanPadCells w c0 ms).2 with hsts0
  have hsts0len : sts0.length = ms.length := (cleanPadCells_length ms).2
  have hpadj : ∀ j, j < ms.length →
      (cleanPadCells w c0 ms).1.getD j none =
        (if (ms.getD j mpDefault).2.1 ≤ c0 + 1/2 * w then some 0
         else none) ∧
      sts0.getD j .notStarted =
        (if (ms.getD j mpDefault).2.1 ≤ c0 + 1/2 * w then MState.started
         else MState.notStarted) := fun j hj => cleanPadCells_getD ms j hj
  have hinv0 : ∀ j, j < ms.length →
      MInv w (ms.getD j mpDefault).2.1 (ms.getD j mpDefault).2.2 c0
        (sts0.getD j .notStarted) := by
    intro j hj
    rw [(hpadj j hj).2]
    exact (cleanPad_step hw (hdata j hj)).2
  obtain ⟨n, hn1, hlastEq, hloopEq⟩ := cleanLoop_eq_ref hw cum ms
    (c0 :: rest) hcsort hcgrid (by simp) sts0
  have hhead : (c0 :: rest).headD 0 = c0 := rfl
  rw [hhead] at hlastEq hloopEq
  obtain ⟨hflen, hfinv, hrowsChar⟩ := cleanRowsRef_spec hw cum ms hdata
    n c0 sts0 hsts0len hg0 hinv0
  have hrows : mordor_datafile_clean_rows w cum hists =
      (c0 - w, 0, (cleanPadCells w c0 ms).1) ::
        (cleanLoop w cum ms (c0 :: rest) sts0).1 ++
        [(lastB + w, 0,
          cleanTrailCells (cleanLoop w cum ms (c0 :: rest) sts0).2)] := by
    unfold mordor_datafile_clean_rows
    rw [hbuck]
  have hposF : c0 + (n : ℚ) * w = lastB + w := by linarith
  intro row hrow j hj
  have hj' : j < ms.length := by rw [hmslen]; exact hj
  have hmsj := hmsD j hj
  rw [hrows] at hrow
  rcases List.mem_cons.mp hrow with rfl | hrow2
  · -- the leading padding row
    have hchar := (cleanPad_step hw (hdata j hj')).1
    have hcell := (hpadj j hj').1
    simp only [hmsj] at hchar hcell
    exact hcell.trans hchar
  · rcases List.mem_append.mp hrow2 with hrowL | hrowT
    · -- a loop row
      rw [hloopEq] at hrowL
      have hchar := hrowsChar row hrowL j hj'
      simp only [hmsj] at hchar
      exact hchar
    · -- the trailing padding row
      have hrewq : row = (lastB + w, (0 : ℕ),
          cleanTrailCells (cleanLoop w cum ms (c0 :: rest) sts0).2) := by
        simpa using hrowT
      subst hrewq
      have hfin : MInv w (ms.getD j mpDefault).2.1
          (ms.getD j mpDefault).2.2 (lastB + w)
          ((cleanLoop w cum ms (c0 :: rest) sts0).2.getD j .notStarted) := by
        rw [hloopEq, ← hposF]
        exact hfinv j hj'
      have hstlen : (cleanLoop w cum ms (c0 :: rest) sts0).2.length =
          ms.length := by
        rw [hloopEq]
        exact hflen
      have hcell := cleanTrailCells_getD
        (cleanLoop w cum ms (c0 :: rest) sts0).2 j
        (by rw [hstlen]; exact hj')
      have hchar := cleanTrail_step hw (hdata j hj') hfin
      simp only [hmsj] at hchar
      exact hcell.trans hchar

theorem C6_clean_render_placeholder_iff_witness :
    ((0 : ℚ), (1 : ℕ), [some 1]).2.2.getD 0 none =
      (if ((0 : ℚ), (1 : ℕ), [some 1]).1 < (mountainStartFinish
            ([(⟨.fin 1, [(0, 1)]⟩ : Histogram)].getD 0
              (histogram_create (.fin 0)))).1 - 3/2 * 1 ∨
          (mountainStartFinish
            ([(⟨.fin 1, [(0, 1)]⟩ : Histogram)].getD 0
              (histogram_create (.fin 0)))).2 + 3/2 * 1 <
            ((0 : ℚ), (1 : ℕ), [some 1]).1
       then none
       else some (histogram_count
          ([(⟨.fin 1, [(0, 1)]⟩ : Histogram)].getD 0
            (histogram_create (.fin 0)))
          ((0 : ℚ), (1 : ℕ), [some 1]).1)) := by
  have hmem : ((0 : ℚ), (1 : ℕ), [some 1]) ∈
      mordor_datafile_clean_rows 1 ⟨.fin 1, [(0, 1)]⟩
        [⟨.fin 1, [(0, 1)]⟩] := by
    have heval : mordor_datafile_clean_rows 1 ⟨.fin 1, [(0, 1)]⟩
        [⟨.fin 1, [(0, 1)]⟩] =
        [(-1, 0, [some 0]), (0, 1, [some 1]), (1, 0, [some 0])] := by
      norm_num [mordor_datafile_clean_rows, histogram_buckets,
        mountainStartFinish, histogram_size, cleanPadCells, cleanLoop,
        cleanRowCells, cleanCell, cleanTrailCells, histogram_count]
    rw [heval]
    simp
  exact C6_clean_render_placeholder_iff 1 (by norm_num)
    ⟨.fin 1, [(0, 1)]⟩ [⟨.fin 1, [(0, 1)]⟩] (by decide) (by decide)
    (by
      intro b hb
      simp [histogram_buckets] at hb
      exact ⟨0, by rw [hb]; norm_num⟩)
    (by
      intro hist hh
      simp at hh
      subst hh
      refine ⟨by decide, by decide, ?_⟩
      intro b hb
      exact hb)
    ((0 : ℚ), (1 : ℕ), [some 1]) hmem 0 (by decide)

end CCTools
